import Mathlib

/-!
Verification of the Pagerando code-generation core (immunant/android_llvm).

This file shallowly embeds the components named by the specification:

* the first-fit bin packer (PagerandoBinning::SimpleAlgo::assignToBin),
* the call-graph packer (PagerandoBinning::CallGraphAlgo),
* the ARM intra-bin optimizer (ARMPagerandoOptimizer.cpp),
* the wrapper synthesis pass (PagerandoWrappers.cpp and its later revision),

and proves or refutes the specification claims about them.
-/

/-! ## First-fit packer

Embeds PagerandoBinning::SimpleAlgo::assignToBin (src/unnamed/part_019,
lines 565-585; identical to FirstFitAlgo::assignToBin in
src/lib/CodeGen/PagerandoBinning.cpp lines 220-244 apart from the UniPOT
check that can only call report_fatal_error).  The multimap keyed by free
space is modelled by a list of (freeSpace, bin) pairs kept sorted by key,
with insertion after equal keys (std::multimap emplace inserts at the upper
bound of the equal range) and lookup returning the first entry whose key is
at least the requested size (std::multimap::lower_bound). -/

/-- Bin capacity: one page (PagerandoBinning::BinSize). -/
def binSize : Nat := 4096

/-- Minimal function size (PagerandoBinning::MinFnSize). -/
def minFnSize : Nat := 2

/-- State of SimpleAlgo: the free-space multimap and the next fresh bin id. -/
structure FFState where
  bins : List (Nat × Nat)
  binCount : Nat
deriving DecidableEq, Repr

/-- The initial packer state (empty multimap, BinCount = 1). -/
def ffInit : FFState := ⟨[], 1⟩

/-- Bins.lower_bound(size): first entry whose key is at least size, returned
together with the list with that entry erased. -/
def findFit (size : Nat) : List (Nat × Nat) → Option ((Nat × Nat) × List (Nat × Nat))
  | [] => none
  | e :: rest =>
    if size ≤ e.1 then some (e, rest)
    else match findFit size rest with
         | some (f, rest') => some (f, e :: rest')
         | none => none

/-- Bins.emplace(free, bin): insert keeping keys sorted, after equal keys. -/
def mmInsert (e : Nat × Nat) : List (Nat × Nat) → List (Nat × Nat)
  | [] => [e]
  | f :: rest => if e.1 < f.1 then e :: f :: rest else f :: mmInsert e rest

/-- SimpleAlgo::assignToBin(FnSize).  Returns the chosen bin id and the new
state. -/
def assignToBin (s : FFState) (fnSize : Nat) : Nat × FFState :=
  match findFit fnSize s.bins with
  | some ((k, b), rest) =>
    let free := k - fnSize
    let bins' := if minFnSize ≤ free then mmInsert (free, b) rest else rest
    (b, ⟨bins', s.binCount⟩)
  | none =>
    let b := s.binCount
    let r := fnSize % binSize
    let free := if r = 0 then 0 else binSize - r
    let bins' := if minFnSize ≤ free then mmInsert (free, b) s.bins else s.bins
    (b, ⟨bins', s.binCount + 1⟩)

/-- Run assignToBin over a sequence of size requests, collecting the returned
bin ids in order. -/
def assignList (s : FFState) : List Nat → List Nat × FFState
  | [] => ([], s)
  | sz :: rest =>
    let p := assignToBin s sz
    let q := assignList p.2 rest
    (p.1 :: q.1, q.2)

/-! ## Call-graph packer

Embeds PagerandoBinning::CallGraphAlgo (src/unnamed/part_019, lines 630-714).
Nodes live in a vector indexed by id.  Each node carries its self size, its
transitive size, the set of its transitive callees (which includes itself,
inserted by addNode) and the set of its direct callers.  std::set is
modelled by a sorted duplicate-free list.  Node{Id, Size} aggregate
initialization zero-fills TraSize and leaves the sets empty. -/

structure CGNode where
  id : Nat
  size : Nat
  traSize : Nat
  traCallees : List Nat
  callers : List Nat
deriving DecidableEq, Repr

/-- std::set insert on a sorted duplicate-free list of node ids. -/
def setInsert (x : Nat) : List Nat → List Nat
  | [] => [x]
  | y :: ys =>
    if x < y then x :: y :: ys
    else if x = y then y :: ys
    else y :: setInsert x ys

/-- std::set range insert. -/
def setUnion (dst src : List Nat) : List Nat := src.foldl (fun acc x => setInsert x acc) dst

/-- Nodes.at(id), with a junk node for out-of-range ids (never hit on the runs
the theorems evaluate). -/
def getNode (nodes : List CGNode) (i : Nat) : CGNode :=
  (nodes.find? (fun n => n.id = i)).getD ⟨i, 0, 0, [], []⟩

/-- In-place update of Nodes.at(id). -/
def updNode (nodes : List CGNode) (i : Nat) (f : CGNode → CGNode) : List CGNode :=
  nodes.map (fun n => if n.id = i then f n else n)

/-- CallGraphAlgo::addNode(Size): a fresh node whose transitive-callee set
contains itself. -/
def cgAddNode (nodes : List CGNode) (size : Nat) : List CGNode :=
  nodes ++ [⟨nodes.length, size, 0, [nodes.length], []⟩]

/-- CallGraphAlgo::addEdge(Caller, Callee): record the caller on the callee and
absorb the callee's transitive callees into the caller's set.  (This relies on
bottom-up edge insertion, exactly like the source.) -/
def cgAddEdge (nodes : List CGNode) (caller callee : Nat) : List CGNode :=
  let toTra := (getNode nodes callee).traCallees
  let nodes₁ := updNode nodes callee (fun n => { n with callers := setInsert caller n.callers })
  updNode nodes₁ caller (fun n => { n with traCallees := setUnion n.traCallees toTra })

/-- CallGraphAlgo::computeTransitiveSize: sum the self sizes over the
transitive-callee set. -/
def cgComputeTraSize (nodes : List CGNode) : List CGNode :=
  nodes.map (fun n =>
    { n with traSize := n.traCallees.foldl (fun acc c => acc + (getNode nodes c).size) 0 })

/-- CallGraphAlgo::selectNode: after sorting the worklist by transitive size,
pick the element just below the upper bound of BinSize (the largest node that
still fits a bin), or the smallest node when none fits (oversized SCC). -/
def selectNode (nodes : List CGNode) (wl : List Nat) : Nat :=
  let fits := wl.filter (fun i => (getNode nodes i).traSize ≤ binSize)
  match fits with
  | _ :: _ =>
    (fits.foldl (fun acc i =>
      match acc with
      | none => some i
      | some j => if (getNode nodes j).traSize ≤ (getNode nodes i).traSize then some i else some j)
      none).getD 0
  | [] =>
    (wl.foldl (fun acc i =>
      match acc with
      | none => some i
      | some j => if (getNode nodes i).traSize < (getNode nodes j).traSize then some i else some j)
      none).getD 0

/-- One expansion step of the caller BFS: add the direct callers of every
reached node. -/
def callersStep (nodes : List CGNode) (r : List Nat) : List Nat :=
  r.foldl (fun acc i => setUnion acc (getNode nodes i).callers) r

/-- The set of transitive callers of a node (itself included), computed by
iterating the expansion once per node, which reaches the BFS fixpoint. -/
def callersReach (nodes : List CGNode) (start : Nat) : List Nat :=
  Nat.rec [start] (fun _ acc => callersStep nodes acc) nodes.length

/-- CallGraphAlgo::adjustCallerSizes: subtract the packed node's transitive
size from every transitive caller (the node itself included, as in the
source's BFS which visits the start node first). -/
def adjustCallerSizes (nodes : List CGNode) (start : Nat) : List CGNode :=
  let sz := (getNode nodes start).traSize
  let reach := callersReach nodes start
  nodes.map (fun n => if n.id ∈ reach then { n with traSize := n.traSize - sz } else n)

/-- std::map::emplace — insert only when the key is absent. -/
def mapEmplace (m : List (Nat × Nat)) (k v : Nat) : List (Nat × Nat) :=
  match m.find? (fun p => p.1 = k) with
  | some _ => m
  | none => m ++ [(k, v)]

/-- CallGraphAlgo::assignAndRemoveCallees: record the bin for the node and all
its transitive callees (without overwriting earlier assignments) and drop those
nodes from the worklist. -/
def assignAndRemoveCallees (nodes : List CGNode) (i bin : Nat)
    (bins : List (Nat × Nat)) (wl : List Nat) : List (Nat × Nat) × List Nat :=
  let n := getNode nodes i
  let bins₁ := mapEmplace bins n.id bin
  let bins₂ := n.traCallees.foldl (fun acc c => mapEmplace acc c bin) bins₁
  (bins₂, wl.filter (fun c => ¬ c ∈ n.traCallees))

/-- The main assignment loop of CallGraphAlgo::computeAssignments, with fuel
(each iteration removes at least the selected node, so the worklist length is
enough fuel). -/
def cgLoop : Nat → List CGNode → FFState → List Nat → List (Nat × Nat) → List (Nat × Nat)
  | 0, _, _, _, bins => bins
  | _ + 1, _, _, [], bins => bins
  | fuel + 1, nodes, salgo, wl@(_ :: _), bins =>
    let i := selectNode nodes wl
    let p := assignToBin salgo (getNode nodes i).traSize
    let q := assignAndRemoveCallees nodes i p.1 bins wl
    let nodes' := adjustCallerSizes nodes i
    cgLoop fuel nodes' p.2 q.2 q.1

/-- CallGraphAlgo::computeAssignments. -/
def computeAssignments (nodes : List CGNode) : List (Nat × Nat) :=
  let nodes' := cgComputeTraSize nodes
  let wl := nodes'.map (fun n => n.id)
  cgLoop wl.length nodes' ffInit wl []

/-- The graph of the StandardExample unit test
(src/unittests/CodeGen/PagerandoBinningCallGraphTest.cpp): eight nodes added in
id order, then the edge list added in reverse (bottom-up) order, exactly as
defineGraph does. -/
def standardExampleNodes : List CGNode :=
  let ns := [600, 800, 3500, 1000, 1000, 1000, 4000, 100].foldl cgAddNode []
  [(2, 7), (2, 6), (1, 5), (1, 4), (1, 3), (0, 2), (0, 1)].foldl
    (fun acc e => cgAddEdge acc e.1 e.2) ns

/-! ## MIR model for the ARM intra-bin optimizer

Embeds src/lib/Target/ARM/ARMPagerandoOptimizer.cpp.  Machine functions are
flattened to one instruction list (basic-block boundaries play no role in the
pass).  Virtual-register def-use chains are modelled by listing the registers
an instruction defines and representing register uses as operands.  ARM
constant-pool entries carry a modifier and a referenced global value. -/

inductive CPMod
  | noMod | potoff | binoff | gotPrel | cpValue
deriving DecidableEq, Repr

/-- A machine constant-pool entry.  isMachine is
MachineConstantPoolEntry::isMachineConstantPoolEntry, isConst tells whether the
machine value is an ARMConstantPoolConstant, gv is the referenced global. -/
structure CPEntry where
  isMachine : Bool
  isConst : Bool
  modifier : CPMod
  gv : Option Nat
deriving DecidableEq, Repr

/-- Junk constant-pool entry used as a getD default. -/
def cpDflt : CPEntry := ⟨false, false, CPMod.noMod, none⟩

/-- Facts about a global value, looked up by its id. -/
structure GVInfo where
  isFunction : Bool
  secPfx : Option String
  pagerando : Bool
deriving DecidableEq, Repr

inductive MOpcode
  | BX_CALL | tBX_CALL | TCRETURNri | BLX | tBLXr
  | TCRETURNdi | BL | tBL
  | t2LDRpci | LDRcp | tPICADD | PICADD
  | generic (n : Nat)
deriving DecidableEq, Repr

inductive MOperand
  | reg (r : Nat)
  | cpi (idx : Nat)
  | imm (n : Int)
  | globalAddr (g : Nat)
  | predNoReg
deriving DecidableEq, Repr

/-- predOps(ARMCC::AL): a condition-code immediate and a dead register slot. -/
def predAL : List MOperand := [MOperand.imm 14, MOperand.predNoReg]

/-- A machine instruction with an identity for worklist bookkeeping.  defRegs
are the virtual registers it defines; ops are its explicit use operands. -/
structure MInstr where
  mid : Nat
  opcode : MOpcode
  isCall : Bool
  mayLoad : Bool
  ops : List MOperand
  defRegs : List Nat
deriving DecidableEq, Repr

/-- A machine function together with the per-function state the pass reads. -/
structure MFunc where
  pagerando : Bool
  skipped : Bool
  secPfx : Option String
  instrs : List MInstr
  pool : List CPEntry
  nextId : Nat
  nextReg : Nat
  nextLabel : Nat
  isThumb : Bool
  isThumb2 : Bool
deriving DecidableEq, Repr

/-- isIntraBin(E, BinPrefix): a machine ARMConstantPoolConstant whose modifier
is POTOFF or BINOFF and whose global is a function with the current bin's
section prefix string. -/
def isIntraBin (g : Nat → GVInfo) (e : CPEntry) (binPfx : String) : Bool :=
  e.isMachine && e.isConst &&
  (e.modifier = CPMod.potoff || e.modifier = CPMod.binoff) &&
  (match e.gv with
   | some f => (g f).isFunction && (g f).secPfx = some binPfx
   | none => false)

/-- The intra-bin predicate of the claim: additionally requires the referenced
function to be a pagerando function. -/
def claimIntra (g : Nat → GVInfo) (e : CPEntry) (binPfx : String) : Bool :=
  isIntraBin g e binPfx && (match e.gv with
                            | some f => (g f).pagerando
                            | none => false)

/-- getCallee(E): the function referenced by the entry. -/
def cpCallee (e : CPEntry) : Nat := e.gv.getD 0

/-- getCPIndex(MI): the constant-pool index of a load whose operand 1 is a CP
index, and none (the source's -1) otherwise.  Machine operand numbering counts
the defined registers first, as in MachineInstr::getOperand. -/
def getCPIndex (i : MInstr) : Option Nat :=
  if i.mayLoad then
    match (i.defRegs.map MOperand.reg ++ i.ops).get? 1 with
    | some (MOperand.cpi idx) => some idx
    | _ => none
  else none

/-- isBXCall. -/
def isBXCall (o : MOpcode) : Bool :=
  o = MOpcode.BX_CALL || o = MOpcode.tBX_CALL

/-- toDirectCall, none on the llvm_unreachable default. -/
def toDirectCall (o : MOpcode) : Option MOpcode :=
  match o with
  | MOpcode.TCRETURNri => some MOpcode.TCRETURNdi
  | MOpcode.BLX => some MOpcode.BL
  | MOpcode.tBLXr => some MOpcode.tBL
  | _ => none

/-- Look up a live instruction by identity. -/
def findInstr (mf : MFunc) (i : Nat) : Option MInstr :=
  mf.instrs.find? (fun m => m.mid = i)

/-- MRI.use_instructions(Reg): instructions with an operand using the register. -/
def useInstrs (mf : MFunc) (r : Nat) : List MInstr :=
  mf.instrs.filter (fun m => MOperand.reg r ∈ m.ops)

/-- MachineInstr::eraseFromParent. -/
def eraseInstr (mf : MFunc) (i : Nat) : MFunc :=
  { mf with instrs := mf.instrs.filter (fun m => ¬ m.mid = i) }

/-- Insert new instructions immediately before the instruction with the given
identity (BuildMI with an insertion point). -/
def insertBefore (mf : MFunc) (i : Nat) (news : List MInstr) : MFunc :=
  { mf with instrs :=
      mf.instrs.flatMap (fun m => if m.mid = i then news ++ [m] else [m]) }

/-- Replace one instruction in place (used for operand updates). -/
def updInstr (mf : MFunc) (i : Nat) (f : MInstr → MInstr) : MFunc :=
  { mf with instrs := mf.instrs.map (fun m => if m.mid = i then f m else m) }

/-- The BX_CALL/tBX_CALL secondary rewrite: append a no-modifier PC-relative
constant-pool entry for the callee, materialize its address with a
constant-pool load and a PIC add, and retarget the call's register operand to
the new address register.  The indirect call instruction itself survives. -/
def rewriteBX (mf : MFunc) (mi : MInstr) (callee : Nat) : MFunc :=
  let label := mf.nextLabel
  let cpv : CPEntry := ⟨true, true, CPMod.noMod, some callee⟩
  let idx := mf.pool.length
  let tempReg := mf.nextReg
  let ldrOpc := if mf.isThumb2 then MOpcode.t2LDRpci else MOpcode.LDRcp
  let ldrOps := [MOperand.cpi idx] ++
    (if ldrOpc = MOpcode.LDRcp then [MOperand.imm 0] else []) ++ predAL
  let ldr : MInstr := ⟨mf.nextId, ldrOpc, false, true, ldrOps, [tempReg]⟩
  let destReg := mf.nextReg + 1
  let addOpc := if mf.isThumb then MOpcode.tPICADD else MOpcode.PICADD
  let addOps := [MOperand.reg tempReg, MOperand.imm (Int.ofNat label)] ++
    (if mf.isThumb then [] else predAL)
  let add : MInstr := ⟨mf.nextId + 1, addOpc, false, false, addOps, [destReg]⟩
  let mf₁ := { mf with pool := mf.pool ++ [cpv], nextReg := mf.nextReg + 2,
                       nextId := mf.nextId + 2, nextLabel := mf.nextLabel + 1 }
  let mf₂ := insertBefore mf₁ mi.mid [ldr, add]
  updInstr mf₂ mi.mid (fun m =>
    { m with ops := match m.ops with
                    | _ :: rest => MOperand.reg destReg :: rest
                    | [] => [] })

/-- replaceWithDirectCall: build the direct form before the call (with an
always predicate re-emitted for tBL), keep the trailing operands, and erase the
indirect call.  The unreachable default of toDirectCall leaves the function
unchanged. -/
def replaceWithDirectCall (mf : MFunc) (mi : MInstr) (callee : Nat) : MFunc :=
  match toDirectCall mi.opcode with
  | none => mf
  | some opc =>
    let lead := if opc = MOpcode.tBL then predAL else []
    let skip := if opc = MOpcode.tBL then 3 else 1
    let news : MInstr :=
      ⟨mf.nextId, opc, true, false, lead ++ [MOperand.globalAddr callee] ++ mi.ops.drop skip, []⟩
    let mf₁ := { mf with nextId := mf.nextId + 1 }
    let mf₂ := insertBefore mf₁ mi.mid [news]
    eraseInstr mf₂ mi.mid

/-- The optimizeCall worklist (a LIFO stack, as SmallVector::pop_back_val).
Non-call instructions enqueue the users of all their defined registers and are
erased; BX calls get the PC-relative rewrite; other calls become direct
calls.  Identities of already-erased instructions are skipped. -/
def optLoop (callee : Nat) : Nat → List Nat → MFunc → MFunc
  | 0, _, mf => mf
  | _ + 1, [], mf => mf
  | fuel + 1, i :: stack, mf =>
    match findInstr mf i with
    | none => optLoop callee fuel stack mf
    | some mi =>
      if ¬ mi.isCall then
        let users := mi.defRegs.flatMap (fun r => (useInstrs mf r).map (fun m => m.mid))
        optLoop callee fuel (users.reverse ++ stack) (eraseInstr mf mi.mid)
      else if isBXCall mi.opcode then
        optLoop callee fuel stack (rewriteBX mf mi callee)
      else
        optLoop callee fuel stack (replaceWithDirectCall mf mi callee)

/-- Fuel that dominates the worklist: every pop either erases one of the at
most n live instructions or consumes one of the at most n*n enqueued users. -/
def optFuel (mf : MFunc) : Nat :=
  mf.instrs.length * mf.instrs.length + mf.instrs.length + 1

/-- PagerandoOptimizer::optimizeCall. -/
def optimizeCall (mf : MFunc) (mi : Nat) (callee : Nat) : MFunc :=
  optLoop callee (optFuel mf) [mi] mf

/-- The index mapping of deleteCPEntries: deleted entries map to the source's
-1 (none), survivors are renumbered contiguously. -/
def cpMapping (ws : List Nat) (old : Nat) : Option Nat :=
  if old ∈ ws then none
  else some (((List.range old).filter (fun i => ¬ i ∈ ws)).length)

/-- Rewriting of one explicit CP-index operand.  A deleted index would trip the
assertion in the source; the model leaves it in place (arbitrary, the theorems
establish the branch is unreachable under the stated precondition). -/
def remapOp (ws : List Nat) (op : MOperand) : MOperand :=
  match op with
  | MOperand.cpi idx =>
    match cpMapping ws idx with
    | some new => MOperand.cpi new
    | none => MOperand.cpi idx
  | _ => op

/-- The erase loop of deleteCPEntries: walk the indices from high to low and
erase the dead ones, so earlier erasures do not shift the indices still to be
erased. -/
def eraseRevAux (ws : List Nat) : Nat → List CPEntry → List CPEntry
  | 0, pool => pool
  | k + 1, pool => eraseRevAux ws k (if k ∈ ws then pool.eraseIdx k else pool)

/-- PagerandoOptimizer::deleteCPEntries. -/
def deleteCPEntries (mf : MFunc) (ws : List Nat) : MFunc :=
  let instrs' := mf.instrs.map (fun m => { m with ops := m.ops.map (remapOp ws) })
  { mf with instrs := instrs', pool := eraseRevAux ws mf.pool.length mf.pool }

/-- One iteration of the optimization loop over the collected uses: re-read
the instruction's constant-pool index (it identifies the callee) and run the
def-use rewriting from it.  Identities of instructions already erased by an
earlier iteration are skipped. -/
def optStep (acc : MFunc) (u : Nat) : MFunc :=
  match findInstr acc u with
  | none => acc
  | some mi =>
    match getCPIndex mi with
    | some idx => optimizeCall acc u (cpCallee (acc.pool.getD idx cpDflt))
    | none => acc

/-- PagerandoOptimizer::runOnMachineFunction. -/
def runOptimizer (g : Nat → GVInfo) (mf : MFunc) : MFunc :=
  if mf.skipped || !mf.pagerando then mf
  else
    match mf.secPfx with
    | none => mf
    | some binPfx =>
      let ws := (List.range mf.pool.length).filter
        (fun i => isIntraBin g (mf.pool.getD i cpDflt) binPfx)
      if ws.isEmpty then mf
      else
        let uses := (mf.instrs.filter (fun m =>
          match getCPIndex m with
          | some idx => idx ∈ ws
          | none => false)).map (fun m => m.mid)
        deleteCPEntries (uses.foldl optStep mf) ws

/-- Globals for the concrete optimizer runs: function 0 is a pagerando
function in bin .bin_1; everything else is not a function. -/
def gEx : Nat → GVInfo := fun n =>
  if n = 0 then ⟨true, some ".bin_1", true⟩ else ⟨false, none, false⟩

/-- A pagerando machine function in bin .bin_1 whose only candidate chain is a
POT-offset constant-pool load feeding a BLX indirect call. -/
def mfBLX : MFunc :=
  ⟨true, false, some ".bin_1",
   [⟨0, MOpcode.t2LDRpci, false, true, [MOperand.cpi 0] ++ predAL, [1]⟩,
    ⟨1, MOpcode.BLX, true, false, [MOperand.reg 1], []⟩],
   [⟨true, true, CPMod.potoff, some 0⟩],
   2, 2, 0, false, false⟩

/-- Same function but with a BX_CALL-style indirect call consuming the
materialized address. -/
def mfBX : MFunc :=
  ⟨true, false, some ".bin_1",
   [⟨0, MOpcode.t2LDRpci, false, true, [MOperand.cpi 0] ++ predAL, [1]⟩,
    ⟨1, MOpcode.BX_CALL, true, false, [MOperand.reg 1], []⟩],
   [⟨true, true, CPMod.potoff, some 0⟩],
   2, 2, 0, false, false⟩

/-- A machine function for exercising deleteCPEntries directly: one surviving
use of CP index 2, with index 1 in the dead workset. -/
def mfW : MFunc :=
  ⟨true, false, some ".bin_1",
   [⟨0, MOpcode.t2LDRpci, false, true, [MOperand.cpi 2] ++ predAL, [1]⟩],
   [cpDflt, ⟨true, true, CPMod.potoff, some 0⟩, ⟨true, true, CPMod.gotPrel, some 3⟩],
   2, 2, 0, false, false⟩

/-- Well-formed instruction identities: pairwise distinct and below the fresh
counter.  In the source, instruction identity is pointer identity and BuildMI
always creates fresh instructions, so every machine function the pass sees
satisfies this. -/
def midsOK (mf : MFunc) : Prop :=
  (mf.instrs.map (fun i => i.mid)).Nodup ∧ ∀ i ∈ mf.instrs, i.mid < mf.nextId

/-- Survival invariant for a tracked BX-style call site: some live instruction
carries the tracked identity, every live instruction with that identity still
has the original opcode and is a call, and all identities stay below the fresh
counter. -/
def bxTracked (k : Nat) (opc : MOpcode) (mf : MFunc) : Prop :=
  (∀ m ∈ mf.instrs, m.mid < mf.nextId) ∧
  (∃ j ∈ mf.instrs, j.mid = k) ∧
  (∀ j ∈ mf.instrs, j.mid = k → j.opcode = opc ∧ j.isCall = true)

/-! ## IR model for wrapper synthesis

Embeds the use-replacement step of the wrapper pass.  The definitive revision
of the pass (src/unnamed/part_017, function replaceWithWrapper, lines 195-236)
replaces every use of a variadic or non-local non-protected function with the
wrapper and promotes a non-local original to protected visibility; for the
remaining functions it replaces only the collected address-taken uses.  Uses
are module-wide edges from a user entity to a function id. -/

inductive Vis
  | defaultVis | hiddenVis | protectedVis
deriving DecidableEq, Repr

structure IRFunc where
  localLinkage : Bool
  visibility : Vis
  varArg : Bool
deriving DecidableEq, Repr

/-- The user of a use, tagged with the identity the pass branches on:
global-variable initializer, global alias, other constant, or instruction
operand. -/
inductive UserTag
  | globalVar (uid : Nat)
  | aliasUser (uid : Nat)
  | constUser (uid : Nat)
  | instrUser (uid : Nat)
deriving DecidableEq, Repr

/-- One use slot; target none models a cleared slot (the source's
U->get() == nullptr guard). -/
structure VUse where
  user : UserTag
  target : Option Nat
deriving DecidableEq, Repr

structure WModule where
  funcs : List (Nat × IRFunc)
  uses : List VUse
deriving DecidableEq, Repr

/-- Value::replaceAllUsesWith on a function id. -/
def rauwFn (m : WModule) (fid wid : Nat) : WModule :=
  { m with uses := m.uses.map (fun u =>
      if u.target = some fid then { u with target := some wid } else u) }

/-- GlobalValue::setVisibility. -/
def setVis (m : WModule) (fid : Nat) (v : Vis) : WModule :=
  { m with funcs := m.funcs.map (fun p =>
      if p.1 = fid then (p.1, { p.2 with visibility := v }) else p) }

/-- Replacement of one address-taken use (part_017, lines 210-234), with the
set of constants already rewritten via handleOperandChange.
handleOperandChange rewrites every use slot of that constant at once. -/
def replaceATUse (m : WModule) (fid wid : Nat) (visited : List Nat) (ui : Nat) :
    WModule × List Nat :=
  match m.uses.get? ui with
  | none => (m, visited)
  | some u =>
    match u.target with
    | none => (m, visited)
    | some _ =>
      match u.user with
      | UserTag.globalVar _ =>
        ({ m with uses := m.uses.set ui { u with target := some wid } }, visited)
      | UserTag.aliasUser a =>
        if a ∈ visited then (m, visited)
        else ({ m with uses := m.uses.set ui { u with target := some wid } }, a :: visited)
      | UserTag.constUser c =>
        if c ∈ visited then (m, visited)
        else ({ m with uses := m.uses.map (fun w =>
                 if w.user = UserTag.constUser c && w.target = some fid
                 then { w with target := some wid } else w) }, c :: visited)
      | UserTag.instrUser _ =>
        ({ m with uses := m.uses.set ui { u with target := some wid } }, visited)

/-- replaceWithWrapper(F, Wrapper, AddressUses) from src/unnamed/part_017. -/
def replaceWithWrapper (m : WModule) (fid wid : Nat) (addressUses : List Nat) : WModule :=
  let F := ((m.funcs.lookup fid).getD ⟨true, Vis.defaultVis, false⟩)
  if F.varArg || (!F.localLinkage && !(F.visibility = Vis.protectedVis)) then
    let m₁ := rauwFn m fid wid
    if !F.localLinkage then setVis m₁ fid Vis.protectedVis else m₁
  else
    (addressUses.foldl (fun acc u => replaceATUse acc.1 fid wid acc.2 u) (m, [])).1

/-- A module for the wrapper-replacement witness: function 0 is external with
default visibility and has one instruction-operand use; function id 1 is its
wrapper. -/
def m7 : WModule :=
  ⟨[(0, ⟨false, Vis.defaultVis, false⟩)], [⟨UserTag.instrUser 5, some 0⟩]⟩

/-! ## IR function bodies: varargs rewrite and wrapper body

Embeds PagerandoWrappers::rewriteVarargs
(src/lib/Transforms/IPO/PagerandoWrappers.cpp, lines 260-314: the revision
with the single-va_start special case) and
PagerandoWrappers::createWrapperBody (lines 617-648 of the same file, the
revision that brackets the call with va_start and va_end; identical in
part_017).  Values are function arguments (by position) or instruction
results (by instruction id). -/

inductive Ty
  | i8 | i32 | agg (n : Nat) | ptr (t : Ty)
deriving DecidableEq, Repr

inductive Val
  | arg (i : Nat)
  | inst (iid : Nat)
deriving DecidableEq, Repr

inductive BIKind
  | alloca (ty : Ty)
  | vastart
  | vacopy
  | vaend
  | bitcast
  | callFn (callee : String)
  | ret
  | retVoid
  | otherInst (n : Nat)
deriving DecidableEq, Repr

structure BInst where
  iid : Nat
  kind : BIKind
  ops : List Val
deriving DecidableEq, Repr

/-- An IR function body with its parameter types.  nextId numbers fresh
instructions. -/
structure VFunc where
  params : List Ty
  varArg : Bool
  body : List BInst
  nextId : Nat
deriving DecidableEq, Repr

/-- The reachable states of the first-fit packer: every multimap entry has a
free space in [MinFnSize, BinSize) and a valid already-allocated nonzero bin
id, and no bin id occurs twice. -/
def SInv (s : FFState) : Prop :=
  1 ≤ s.binCount ∧
  (∀ e ∈ s.bins, minFnSize ≤ e.1 ∧ e.1 < binSize ∧ 1 ≤ e.2 ∧ e.2 < s.binCount) ∧
  (s.bins.map Prod.snd).Nodup

/-- Total size of the requests assigned to bin b in a run (sizes paired
pointwise with the returned bin ids). -/
def binnedSum (b : Nat) : List Nat → List Nat → Nat
  | a :: sizes, c :: bins => (if c = b then a else 0) + binnedSum b sizes bins
  | _, _ => 0

/-- Indices below n surviving the deletion of the workset. -/
def survIdx (ws : List Nat) (n : Nat) : List Nat :=
  (List.range n).filter (fun i => ¬ i ∈ ws)

/-- The surviving entries of a pool, in order. -/
def survivors (ws : List Nat) (pool : List CPEntry) : List CPEntry :=
  (survIdx ws pool.length).map (fun i => pool.getD i cpDflt)

/-- A variadic function body for the varargs-rewrite witness: one parameter,
a va_list allocation, a bitcast feeding the single va_start, and one more use
of the allocation. -/
def vfEx : VFunc :=
  ⟨[Ty.i32], true,
   [⟨0, BIKind.alloca (Ty.agg 4), []⟩,
    ⟨1, BIKind.bitcast, [Val.inst 0]⟩,
    ⟨2, BIKind.vastart, [Val.inst 1]⟩,
    ⟨3, BIKind.otherInst 0, [Val.inst 0, Val.arg 0]⟩], 4⟩

/-- findVAStarts. -/
def findVAStarts (body : List BInst) : List BInst :=
  body.filter (fun i => i.kind = BIKind.vastart)

/-- findAlloca: walk from an instruction through first operands until an
alloca is reached (none models the assertion on a broken chain). -/
def findAlloca (body : List BInst) : Nat → BInst → Option BInst
  | 0, _ => none
  | fuel + 1, cur =>
    match cur.kind with
    | BIKind.alloca _ => some cur
    | _ =>
      match cur.ops.head? with
      | some (Val.inst j) =>
        match body.find? (fun i => i.iid = j) with
        | some nxt => findAlloca body fuel nxt
        | none => none
      | _ => none

/-- Substitution of one value for another in an operand. -/
def substVal (a b v : Val) : Val := if v = a then b else v

/-- Insert, before each va_start, a bitcast of the new trailing argument and a
va_copy from the va_start's destination into it (the multi-va_start branch of
rewriteVarargs). -/
def insertVACopies (vaArg : Val) (starts : List Nat) (body : List BInst)
    (nid : Nat) : List BInst × Nat :=
  body.foldl (fun acc i =>
    if i.iid ∈ starts then
      (acc.1 ++ [⟨acc.2, BIKind.bitcast, [vaArg]⟩,
                 ⟨acc.2 + 1, BIKind.vacopy, [i.ops.headD (Val.arg 0), Val.inst acc.2]⟩, i],
       acc.2 + 2)
    else (acc.1 ++ [i], acc.2)) ([], nid)

/-- PagerandoWrappers::rewriteVarargs (lines 260-314): append a pointer to the
va_list type as a parameter, drop the variadic flag, and either substitute the
new parameter for the va_list allocation (single va_start) or insert va_copy
calls (otherwise); all va_start instructions are erased. -/
def rewriteVarargs (F : VFunc) : VFunc :=
  let starts := findVAStarts F.body
  match starts.head? with
  | none => F
  | some vs0 =>
    match findAlloca F.body (F.body.length + 1) vs0 with
    | none => F
    | some al =>
      match al.kind with
      | BIKind.alloca vt =>
        let n := F.params.length
        let params' := F.params ++ [Ty.ptr vt]
        let step :=
          if starts.length = 1 then
            (((F.body.map (fun i =>
                { i with ops := i.ops.map (substVal (Val.inst al.iid) (Val.arg n)) })).filter
              (fun i => ¬ i.iid = al.iid)), F.nextId)
          else
            insertVACopies (Val.arg n) (starts.map (fun i => i.iid)) F.body F.nextId
        let body₂ := step.1.filter (fun i => ¬ i.kind = BIKind.vastart)
        ⟨params', false, body₂, step.2⟩
      | _ => F

/-- PagerandoWrappers::createWrapperBody (lines 617-648): forward the
parameters, synthesize the va_list bracket when the callee takes one, call,
and return. -/
def createWrapperBody (n : Nat) (calleeName : String) (retIsVoid : Bool)
    (vaListTy : Option Ty) : List BInst :=
  let args := (List.range n).map Val.arg
  match vaListTy with
  | none =>
    [⟨0, BIKind.callFn calleeName, args⟩,
     if retIsVoid then ⟨1, BIKind.retVoid, []⟩ else ⟨1, BIKind.ret, [Val.inst 0]⟩]
  | some vt =>
    [⟨0, BIKind.alloca vt, []⟩,
     ⟨1, BIKind.bitcast, [Val.inst 0]⟩,
     ⟨2, BIKind.vastart, [Val.inst 1]⟩,
     ⟨3, BIKind.callFn calleeName, args ++ [Val.inst 0]⟩,
     ⟨4, BIKind.bitcast, [Val.inst 0]⟩,
     ⟨5, BIKind.vaend, [Val.inst 4]⟩,
     if retIsVoid then ⟨6, BIKind.retVoid, []⟩ else ⟨6, BIKind.ret, [Val.inst 3]⟩]

/-! # Theorems

First the supporting lemmas about the first-fit packer, then the claim
theorems. -/

theorem findFit_sound : ∀ (l : List (Nat × Nat)) (sz : Nat) (e : Nat × Nat)
    (rest : List (Nat × Nat)), findFit sz l = some (e, rest) →
    l.Perm (e :: rest) ∧ sz ≤ e.1 := by
  intro l
  induction l with
  | nil => intro sz e rest h; simp [findFit] at h
  | cons f fs ih =>
    intro sz e rest h
    by_cases hf : sz ≤ f.1
    · simp [findFit, hf] at h
      obtain ⟨h1, h2⟩ := h
      subst h1; subst h2
      exact ⟨List.Perm.refl _, hf⟩
    · rw [findFit] at h
      simp only [if_neg hf] at h
      cases hm : findFit sz fs with
      | none => rw [hm] at h; simp at h
      | some p =>
        obtain ⟨g, rest'⟩ := p
        rw [hm] at h
        simp at h
        obtain ⟨h1, h2⟩ := h
        subst h1; subst h2
        obtain ⟨hperm, hle⟩ := ih sz g rest' hm
        exact ⟨(hperm.cons f).trans (List.Perm.swap g f rest'), hle⟩

theorem mmInsert_perm : ∀ (l : List (Nat × Nat)) (e : Nat × Nat),
    (mmInsert e l).Perm (e :: l) := by
  intro l
  induction l with
  | nil => intro e; simp [mmInsert]
  | cons f fs ih =>
    intro e
    rw [mmInsert]
    by_cases hc : e.1 < f.1
    · simp [hc]
    · simp only [if_neg hc]
      exact ((ih e).cons f).trans (List.Perm.swap e f fs)

theorem mem_mmInsert_self (e : Nat × Nat) (l : List (Nat × Nat)) : e ∈ mmInsert e l :=
  (mmInsert_perm l e).mem_iff.mpr (List.mem_cons_self e l)

theorem mem_mmInsert_of_mem {a : Nat × Nat} (e : Nat × Nat) {l : List (Nat × Nat)}
    (h : a ∈ l) : a ∈ mmInsert e l :=
  (mmInsert_perm l e).mem_iff.mpr (List.mem_cons_of_mem e h)

theorem mem_of_mem_mmInsert {a e : Nat × Nat} {l : List (Nat × Nat)}
    (h : a ∈ mmInsert e l) : a = e ∨ a ∈ l := by
  have := (mmInsert_perm l e).mem_iff.mp h
  simpa using this

theorem assign_found {s : FFState} {sz k b : Nat} {rest : List (Nat × Nat)}
    (hf : findFit sz s.bins = some ((k, b), rest)) :
    assignToBin s sz =
      (b, ⟨if minFnSize ≤ k - sz then mmInsert (k - sz, b) rest else rest, s.binCount⟩) := by
  simp [assignToBin, hf]

theorem assign_fresh {s : FFState} {sz : Nat} (hf : findFit sz s.bins = none) :
    assignToBin s sz =
      (s.binCount,
       ⟨if minFnSize ≤ (if sz % binSize = 0 then 0 else binSize - sz % binSize)
          then mmInsert ((if sz % binSize = 0 then 0 else binSize - sz % binSize), s.binCount)
                 s.bins
          else s.bins,
        s.binCount + 1⟩) := by
  simp [assignToBin, hf]

theorem assign_SInv {s : FFState} (sz : Nat) (h : SInv s) :
    SInv (assignToBin s sz).2 ∧ 1 ≤ (assignToBin s sz).1 ∧
    (assignToBin s sz).1 < (assignToBin s sz).2.binCount ∧
    s.binCount ≤ (assignToBin s sz).2.binCount := by
  obtain ⟨hbc, hent, hnd⟩ := h
  cases hm : findFit sz s.bins with
  | none =>
    rw [assign_fresh hm]
    have hfree : (if sz % binSize = 0 then 0 else binSize - sz % binSize) < binSize := by
      by_cases hr : sz % binSize = 0
      · rw [if_pos hr]; decide
      · rw [if_neg hr]
        exact Nat.sub_lt (by decide) (Nat.pos_of_ne_zero hr)
    have hbcnot : s.binCount ∉ s.bins.map Prod.snd := by
      intro hmem
      obtain ⟨e, hme, hse⟩ := List.mem_map.mp hmem
      exact absurd (hse ▸ (hent e hme).2.2.2) (lt_irrefl _)
    refine ⟨⟨le_trans hbc (Nat.le_succ _), ?_, ?_⟩, hbc, Nat.lt_succ_self _, Nat.le_succ _⟩
    · intro e he
      by_cases hg : minFnSize ≤ (if sz % binSize = 0 then 0 else binSize - sz % binSize)
      · rw [if_pos hg] at he
        rcases mem_of_mem_mmInsert he with rfl | he'
        · exact ⟨hg, hfree, hbc, Nat.lt_succ_self _⟩
        · obtain ⟨h1, h2, h3, h4⟩ := hent e he'
          exact ⟨h1, h2, h3, lt_trans h4 (Nat.lt_succ_self _)⟩
      · rw [if_neg hg] at he
        obtain ⟨h1, h2, h3, h4⟩ := hent e he
        exact ⟨h1, h2, h3, lt_trans h4 (Nat.lt_succ_self _)⟩
    · by_cases hg : minFnSize ≤ (if sz % binSize = 0 then 0 else binSize - sz % binSize)
      · rw [if_pos hg]
        have hperm := (mmInsert_perm s.bins
          ((if sz % binSize = 0 then 0 else binSize - sz % binSize), s.binCount)).map Prod.snd
        rw [hperm.nodup_iff]
        exact List.nodup_cons.mpr ⟨hbcnot, hnd⟩
      · rw [if_neg hg]; exact hnd
  | some p =>
    obtain ⟨⟨k, b⟩, rest⟩ := p
    rw [assign_found hm]
    obtain ⟨hperm, hsz⟩ := findFit_sound _ _ _ _ hm
    have hmem : (k, b) ∈ s.bins := hperm.mem_iff.mpr (List.mem_cons_self _ _)
    obtain ⟨hk2, hklt, hb1, hblt⟩ := hent _ hmem
    have hrest : ∀ e ∈ rest, e ∈ s.bins := fun e he =>
      hperm.mem_iff.mpr (List.mem_cons_of_mem _ he)
    have hndrest : b ∉ rest.map Prod.snd ∧ (rest.map Prod.snd).Nodup := by
      have := (hperm.map Prod.snd).nodup_iff.mp hnd
      exact List.nodup_cons.mp this
    refine ⟨⟨hbc, ?_, ?_⟩, hb1, hblt, le_refl _⟩
    · intro e he
      by_cases hg : minFnSize ≤ k - sz
      · rw [if_pos hg] at he
        rcases mem_of_mem_mmInsert he with rfl | he'
        · exact ⟨hg, lt_of_le_of_lt (Nat.sub_le _ _) hklt, hb1, hblt⟩
        · exact hent e (hrest e he')
      · rw [if_neg hg] at he
        exact hent e (hrest e he)
    · by_cases hg : minFnSize ≤ k - sz
      · rw [if_pos hg]
        have hp := (mmInsert_perm rest (k - sz, b)).map Prod.snd
        rw [hp.nodup_iff]
        exact List.nodup_cons.mpr hndrest
      · rw [if_neg hg]; exact hndrest.2

theorem assignList_cons (s : FFState) (a : Nat) (l : List Nat) :
    assignList s (a :: l) =
      ((assignToBin s a).1 :: (assignList (assignToBin s a).2 l).1,
       (assignList (assignToBin s a).2 l).2) := rfl

theorem assignList_length (l : List Nat) : ∀ s, (assignList s l).1.length = l.length := by
  induction l with
  | nil => intro s; rfl
  | cons a rest ih => intro s; rw [assignList_cons]; simp [ih]

theorem SInv_init : SInv ffInit := by
  refine ⟨le_refl _, ?_, ?_⟩ <;> simp [ffInit]

theorem SInv_run (l : List Nat) : ∀ s, SInv s → SInv (assignList s l).2 := by
  induction l with
  | nil => intro s h; exact h
  | cons a rest ih => intro s h; rw [assignList_cons]; exact ih _ (assign_SInv a h).1

theorem assign_binCount_le (s : FFState) (sz : Nat) :
    s.binCount ≤ (assignToBin s sz).2.binCount := by
  cases hm : findFit sz s.bins with
  | none => rw [assign_fresh hm]; exact Nat.le_succ _
  | some p =>
    obtain ⟨⟨k, b⟩, rest⟩ := p
    rw [assign_found hm]

theorem run_binCount_le (l : List Nat) : ∀ s, s.binCount ≤ (assignList s l).2.binCount := by
  induction l with
  | nil => intro s; exact le_refl _
  | cons a rest ih =>
    intro s; rw [assignList_cons]
    exact le_trans (assign_binCount_le s a) (ih _)

theorem key_unique {l : List (Nat × Nat)} (hnd : (l.map Prod.snd).Nodup)
    {k k' b : Nat} (h1 : (k, b) ∈ l) (h2 : (k', b) ∈ l) : k = k' := by
  induction l with
  | nil => cases h1
  | cons f fs ih =>
    rw [List.map_cons, List.nodup_cons] at hnd
    rcases List.mem_cons.mp h1 with h1' | h1' <;> rcases List.mem_cons.mp h2 with h2' | h2'
    · rw [← h1'] at h2'
      exact (Prod.mk.injEq _ _ _ _ ▸ h2').1.symm
    · exfalso
      apply hnd.1
      rw [← h1']
      exact List.mem_map.mpr ⟨(k', b), h2', rfl⟩
    · exfalso
      apply hnd.1
      rw [← h2']
      exact List.mem_map.mpr ⟨(k, b), h1', rfl⟩
    · exact ih hnd.2 h1' h2'

theorem dead_bin (l : List Nat) : ∀ s b, SInv s → b < s.binCount →
    b ∉ s.bins.map Prod.snd → b ∉ (assignList s l).1 := by
  induction l with
  | nil => intro s b _ _ _; simp [assignList]
  | cons a rest ih =>
    intro s b hs hb hnot
    rw [assignList_cons]
    simp only [List.mem_cons, not_or]
    have hpres := assign_SInv a hs
    cases hm : findFit a s.bins with
    | some p =>
      obtain ⟨⟨k, b'⟩, rest'⟩ := p
      have heq := assign_found hm
      obtain ⟨hperm, _⟩ := findFit_sound _ _ _ _ hm
      have hmem : (k, b') ∈ s.bins := hperm.mem_iff.mpr (List.mem_cons_self _ _)
      have hbb' : b ≠ b' := by
        intro h; subst h
        exact hnot (List.mem_map.mpr ⟨(k, b), hmem, rfl⟩)
      have hmap := hperm.map Prod.snd
      have hnotrest : b ∉ rest'.map Prod.snd := by
        intro hc
        exact hnot (hmap.mem_iff.mpr (List.mem_cons_of_mem _ hc))
      refine ⟨by rw [heq]; exact hbb', ?_⟩
      apply ih _ b hpres.1
      · rw [heq]; exact hb
      · rw [heq]
        by_cases hg : minFnSize ≤ k - a
        · rw [if_pos hg]
          intro hc
          have := ((mmInsert_perm rest' (k - a, b')).map Prod.snd).mem_iff.mp hc
          rcases List.mem_cons.mp this with h1 | h2
          · exact hbb' h1
          · exact hnotrest h2
        · rw [if_neg hg]; exact hnotrest
    | none =>
      have heq := assign_fresh hm
      refine ⟨by rw [heq]; exact Nat.ne_of_lt hb, ?_⟩
      apply ih _ b hpres.1
      · rw [heq]; exact lt_trans hb (Nat.lt_succ_self _)
      · rw [heq]
        by_cases hg : minFnSize ≤ (if a % binSize = 0 then 0 else binSize - a % binSize)
        · rw [if_pos hg]
          intro hc
          have := ((mmInsert_perm s.bins _).map Prod.snd).mem_iff.mp hc
          rcases List.mem_cons.mp this with h1 | h2
          · exact Nat.ne_of_lt hb h1
          · exact hnot h2
        · rw [if_neg hg]; exact hnot

theorem binnedSum_zero {b : Nat} : ∀ {sizes bins : List Nat}, b ∉ bins →
    binnedSum b sizes bins = 0 := by
  intro sizes
  induction sizes with
  | nil => intro bins _; cases bins <;> rfl
  | cons a rest ih =>
    intro bins hb
    cases bins with
    | nil => rfl
    | cons c bs =>
      simp only [List.mem_cons, not_or] at hb
      rw [binnedSum, if_neg (fun h => hb.1 h.symm), ih hb.2]

theorem future_sum (l : List Nat) : ∀ s k b, SInv s → (k, b) ∈ s.bins →
    binnedSum b l (assignList s l).1 ≤ k := by
  induction l with
  | nil => intro s k b _ _; simp [assignList, binnedSum]
  | cons a rest ih =>
    intro s k b hs hkb
    rw [assignList_cons]
    have hpres := assign_SInv a hs
    obtain ⟨hbc, hent, hnd⟩ := hs
    obtain ⟨hk2, hklt, hb1, hblt⟩ := hent _ hkb
    cases hm : findFit a s.bins with
    | some p =>
      obtain ⟨⟨k', b'⟩, rest'⟩ := p
      have heq := assign_found hm
      rw [heq] at hpres ⊢
      obtain ⟨hperm, hak⟩ := findFit_sound _ _ _ _ hm
      have hmem : (k', b') ∈ s.bins := hperm.mem_iff.mpr (List.mem_cons_self _ _)
      have hmap := hperm.map Prod.snd
      by_cases hb : b' = b
      · subst hb
        have hkk : k = k' := key_unique hnd hkb hmem
        subst hkk
        rw [binnedSum, if_pos rfl]
        by_cases hg : minFnSize ≤ k - a
        · have hin : (k - a, b') ∈ (if minFnSize ≤ k - a then mmInsert (k - a, b') rest'
              else rest') := by
            rw [if_pos hg]; exact mem_mmInsert_self _ _
          have := ih _ (k - a) b' hpres.1 hin
          omega
        · have hnotrest : b' ∉ (List.map Prod.snd rest') :=
            (List.nodup_cons.mp (hmap.nodup_iff.mp hnd)).1
          have hdead := dead_bin rest
            ⟨if minFnSize ≤ k - a then mmInsert (k - a, b') rest' else rest', s.binCount⟩
            b' hpres.1 hblt (by rw [if_neg hg]; exact hnotrest)
          rw [binnedSum_zero hdead]
          omega
      · rw [binnedSum, if_neg hb]
        have hkbrest : (k, b) ∈ rest' := by
          have := hperm.mem_iff.mp hkb
          rcases List.mem_cons.mp this with h1 | h2
          · exact absurd ((Prod.mk.injEq _ _ _ _ ▸ h1).2) (by simpa using hb ∘ Eq.symm)
          · exact h2
        have hin : (k, b) ∈ (if minFnSize ≤ k' - a then mmInsert (k' - a, b') rest'
            else rest') := by
          by_cases hg : minFnSize ≤ k' - a
          · rw [if_pos hg]; exact mem_mmInsert_of_mem _ hkbrest
          · rw [if_neg hg]; exact hkbrest
        have := ih _ k b hpres.1 hin
        omega
    | none =>
      have heq := assign_fresh hm
      rw [heq] at hpres ⊢
      have hne : s.binCount ≠ b := (Nat.ne_of_lt hblt).symm
      rw [binnedSum, if_neg hne]
      have hin : (k, b) ∈ (if minFnSize ≤ (if a % binSize = 0 then 0
          else binSize - a % binSize) then
            mmInsert ((if a % binSize = 0 then 0 else binSize - a % binSize), s.binCount) s.bins
          else s.bins) := by
        by_cases hg : minFnSize ≤ (if a % binSize = 0 then 0 else binSize - a % binSize)
        · rw [if_pos hg]; exact mem_mmInsert_of_mem _ hkb
        · rw [if_neg hg]; exact hkb
      have := ih _ k b hpres.1 hin
      omega

theorem getD_le_binnedSum : ∀ (sizes bins : List Nat) (j b : Nat),
    j < sizes.length → j < bins.length → bins.getD j 0 = b →
    sizes.getD j 0 ≤ binnedSum b sizes bins := by
  intro sizes
  induction sizes with
  | nil => intro bins j b h; simp at h
  | cons a rest ih =>
    intro bins j b hj hjb hb
    cases bins with
    | nil => simp at hjb
    | cons c bs =>
      cases j with
      | zero =>
        simp only [List.getD_cons_zero] at hb ⊢
        rw [binnedSum, if_pos hb]
        exact Nat.le_add_right _ _
      | succ j' =>
        simp only [List.getD_cons_succ] at hb ⊢
        have := ih bs j' b (by simpa using hj) (by simpa using hjb) hb
        calc rest.getD j' 0 ≤ binnedSum b rest bs := this
          _ ≤ (if c = b then a else 0) + binnedSum b rest bs := Nat.le_add_left _ _

theorem run_nonzero (l : List Nat) : ∀ s, SInv s → ∀ i, i < l.length →
    (assignList s l).1.getD i 0 ≠ 0 := by
  induction l with
  | nil => intro s _ i hi; simp at hi
  | cons a rest ih =>
    intro s hs i hi
    rw [assignList_cons]
    cases i with
    | zero =>
      have h1 := (assign_SInv a hs).2.1
      simp only [List.getD_cons_zero]
      omega
    | succ i' =>
      simp only [List.getD_cons_succ]
      exact ih _ (assign_SInv a hs).1 i' (by simpa using hi)

theorem getD_mem_of_lt : ∀ {l : List Nat} {n : Nat}, n < l.length → l.getD n 0 ∈ l := by
  intro l
  induction l with
  | nil => intro n h; simp at h
  | cons a as ih =>
    intro n h
    cases n with
    | zero => simp
    | succ m =>
      simp only [List.getD_cons_succ]
      exact List.mem_cons_of_mem _ (ih (by simpa using h))

theorem run_pairwise (l : List Nat) : ∀ s, SInv s → ∀ i j, i < j → j < l.length →
    (assignList s l).1.getD i 0 = (assignList s l).1.getD j 0 →
    l.getD i 0 + l.getD j 0 ≤ binSize ∨ binSize < l.getD i 0 ∨ binSize < l.getD j 0 := by
  induction l with
  | nil => intro s _ i j _ hj; simp at hj
  | cons a rest ih =>
    intro s hs i j hij hj heq
    rw [assignList_cons] at heq
    cases j with
    | zero => exact absurd hij (Nat.not_lt_zero i)
    | succ j' =>
      cases i with
      | succ i' =>
        simp only [List.getD_cons_succ] at heq ⊢
        exact ih _ (assign_SInv a hs).1 i' j' (by omega) (by simpa using hj) heq
      | zero =>
        simp only [List.getD_cons_zero, List.getD_cons_succ] at heq ⊢
        have hpres := assign_SInv a hs
        have hj' : j' < rest.length := by simpa using hj
        have hj'rs : j' < (assignList (assignToBin s a).2 rest).1.length := by
          rw [assignList_length]; exact hj'
        have hx := getD_le_binnedSum rest (assignList (assignToBin s a).2 rest).1 j'
          (assignToBin s a).1 hj' hj'rs heq.symm
        have hmemrs : (assignToBin s a).1 ∈ (assignList (assignToBin s a).2 rest).1 :=
          heq ▸ getD_mem_of_lt hj'rs
        obtain ⟨hbc, hent, hnd⟩ := hs
        cases hm : findFit a s.bins with
        | some p =>
          obtain ⟨⟨k, b⟩, rest'⟩ := p
          have heqa := assign_found hm
          rw [heqa] at hx hmemrs hpres
          dsimp only at hx hmemrs hpres
          obtain ⟨hperm, hak⟩ := findFit_sound _ _ _ _ hm
          have hmem : (k, b) ∈ s.bins := hperm.mem_iff.mpr (List.mem_cons_self _ _)
          obtain ⟨hk2, hklt, hb1, hblt⟩ := hent _ hmem
          have hmap := hperm.map Prod.snd
          by_cases hg : minFnSize ≤ k - a
          · have hin : (k - a, b) ∈ (if minFnSize ≤ k - a then mmInsert (k - a, b) rest'
                else rest') := by
              rw [if_pos hg]; exact mem_mmInsert_self _ _
            have hsum := future_sum rest _ (k - a) b hpres.1 hin
            left
            omega
          · have hnotrest : b ∉ (List.map Prod.snd rest') :=
              (List.nodup_cons.mp (hmap.nodup_iff.mp hnd)).1
            have hdead := dead_bin rest
              ⟨if minFnSize ≤ k - a then mmInsert (k - a, b) rest' else rest', s.binCount⟩
              b hpres.1 hblt (by rw [if_neg hg]; exact hnotrest)
            exact absurd hmemrs hdead
        | none =>
          have heqa := assign_fresh hm
          rw [heqa] at hx hmemrs hpres
          dsimp only at hx hmemrs hpres
          have hbcnot : s.binCount ∉ s.bins.map Prod.snd := by
            intro hmemc
            obtain ⟨e, hme, hse⟩ := List.mem_map.mp hmemc
            exact absurd (hse ▸ (hent e hme).2.2.2) (lt_irrefl _)
          by_cases hg : minFnSize ≤ (if a % binSize = 0 then 0 else binSize - a % binSize)
          · have hin : ((if a % binSize = 0 then 0 else binSize - a % binSize), s.binCount) ∈
                (if minFnSize ≤ (if a % binSize = 0 then 0 else binSize - a % binSize) then
                  mmInsert ((if a % binSize = 0 then 0 else binSize - a % binSize),
                    s.binCount) s.bins
                 else s.bins) := by
              rw [if_pos hg]; exact mem_mmInsert_self _ _
            have hsum := future_sum rest _ _ _ hpres.1 hin
            have hxs : rest.getD j' 0 ≤
                (if a % binSize = 0 then 0 else binSize - a % binSize) :=
              le_trans hx hsum
            by_cases hr : a % binSize = 0
            · rw [if_pos hr] at hg
              exact absurd hg (by decide)
            · rw [if_neg hr] at hxs
              by_cases ha : binSize < a
              · right; left; exact ha
              · left
                have halt : a < binSize := by
                  rcases Nat.lt_or_ge a binSize with h1 | h1
                  · exact h1
                  · have : a = binSize := le_antisymm (not_lt.mp ha) h1
                    exact absurd (this ▸ Nat.mod_self binSize) hr
                have hmod : a % binSize = a := Nat.mod_eq_of_lt halt
                rw [hmod] at hxs
                omega
          · have hdead := dead_bin rest
              ⟨if minFnSize ≤ (if a % binSize = 0 then 0 else binSize - a % binSize) then
                  mmInsert ((if a % binSize = 0 then 0 else binSize - a % binSize),
                    s.binCount) s.bins
                else s.bins, s.binCount + 1⟩
              s.binCount hpres.1 (Nat.lt_succ_self _) (by rw [if_neg hg]; exact hbcnot)
            exact absurd hmemrs hdead

theorem run_lt_binCount (l : List Nat) : ∀ s, SInv s → ∀ b, b ∈ (assignList s l).1 →
    b < (assignList s l).2.binCount := by
  induction l with
  | nil => intro s _ b hb; simp [assignList] at hb
  | cons a rest ih =>
    intro s hs b hb
    rw [assignList_cons] at hb ⊢
    rcases List.mem_cons.mp hb with rfl | h2
    · exact lt_of_lt_of_le (assign_SInv a hs).2.2.1 (run_binCount_le rest _)
    · exact ih _ (assign_SInv a hs).1 b h2

theorem findFit_none : ∀ (l : List (Nat × Nat)) (sz : Nat), (∀ e ∈ l, e.1 < sz) →
    findFit sz l = none := by
  intro l
  induction l with
  | nil => intro sz _; rfl
  | cons f fs ih =>
    intro sz h
    rw [findFit, if_neg (not_le.mpr (h f (List.mem_cons_self _ _))),
      ih sz (fun e he => h e (List.mem_cons_of_mem _ he))]

theorem assignList_append (l₁ l₂ : List Nat) : ∀ s,
    assignList s (l₁ ++ l₂) =
      ((assignList s l₁).1 ++ (assignList (assignList s l₁).2 l₂).1,
       (assignList (assignList s l₁).2 l₂).2) := by
  induction l₁ with
  | nil => intro s; simp [assignList]
  | cons a rest ih =>
    intro s
    rw [List.cons_append, assignList_cons, assignList_cons, ih]
    rfl

/-- Claim C1 (spec P7, packer totality): on any finite sequence of size
requests from the initial state, every assignToBin call returns a nonzero bin
id, and any two requests that receive the same bin id have sizes summing to at
most the capacity 4096, unless at least one of the two sizes alone exceeds
4096. -/
theorem firstFit_totality_pairwise (sizes : List Nat) :
    (∀ i, i < sizes.length → (assignList ffInit sizes).1.getD i 0 ≠ 0) ∧
    (∀ i j, i < j → j < sizes.length →
      (assignList ffInit sizes).1.getD i 0 = (assignList ffInit sizes).1.getD j 0 →
      sizes.getD i 0 + sizes.getD j 0 ≤ 4096 ∨
        4096 < sizes.getD i 0 ∨ 4096 < sizes.getD j 0) :=
  ⟨fun i hi => run_nonzero sizes ffInit SInv_init i hi,
   fun i j hij hj heq => run_pairwise sizes ffInit SInv_init i j hij hj heq⟩

/-- Witness for C1 at the request sequence 3000, 3001, 3000, 100 (requests 1
and 3 share bin 2). -/
theorem firstFit_totality_pairwise_witness :
    (assignList ffInit [3000, 3001, 3000, 100]).1.getD 1 0 ≠ 0 ∧
    ([3000, 3001, 3000, 100].getD 1 0 + [3000, 3001, 3000, 100].getD 3 0 ≤ 4096 ∨
      4096 < [3000, 3001, 3000, 100].getD 1 0 ∨
      4096 < [3000, 3001, 3000, 100].getD 3 0) :=
  ⟨(firstFit_totality_pairwise [3000, 3001, 3000, 100]).1 1 (by decide),
   (firstFit_totality_pairwise [3000, 3001, 3000, 100]).2 1 3 (by decide) (by decide)
     (by decide)⟩

/-- Claim C3: from the empty state the request sequence 3000, 3001, 3000, 100
is assigned to bins 1, 2, 3, 2; before the fourth request the multimap holds
bins 2, 1, 3 with 1095, 1096 and 1096 bytes free, and lower_bound(100) selects
bin 2, the bin with the least remaining free space that still fits 100. -/
theorem firstFit_leastFreeSpace_example :
    (assignList ffInit [3000, 3001, 3000, 100]).1 = [1, 2, 3, 2] ∧
    (assignList ffInit [3000, 3001, 3000]).2.bins = [(1095, 2), (1096, 1), (1096, 3)] ∧
    findFit 100 (assignList ffInit [3000, 3001, 3000]).2.bins
      = some ((1095, 2), [(1096, 1), (1096, 3)]) :=
  ⟨by decide, by decide, by decide⟩

/-- Claim C4: a request of at least the bin capacity always opens a fresh bin,
one that no earlier request ever received; in particular the sequence
4096, 8192, 1 is assigned to bins 1, 2, 3. -/
theorem firstFit_oversized_fresh_bin :
    (∀ pre sz, 4096 ≤ sz →
      (assignList ffInit (pre ++ [sz])).1
        = (assignList ffInit pre).1 ++ [(assignList ffInit pre).2.binCount] ∧
      (assignList ffInit pre).2.binCount ∉ (assignList ffInit pre).1) ∧
    (assignList ffInit [4096, 8192, 1]).1 = [1, 2, 3] := by
  constructor
  · intro pre sz hsz
    have hS := SInv_run pre ffInit SInv_init
    have hnone : findFit sz (assignList ffInit pre).2.bins = none :=
      findFit_none _ _ (fun e he => lt_of_lt_of_le (hS.2.1 e he).2.1 hsz)
    constructor
    · have hone : (assignList (assignList ffInit pre).2 [sz]).1
          = [(assignList ffInit pre).2.binCount] := by
        rw [assignList_cons, assign_fresh hnone]
        rfl
      rw [assignList_append]
      dsimp only
      rw [hone]
    · intro hc
      exact absurd (run_lt_binCount pre ffInit SInv_init _ hc) (lt_irrefl _)
  · decide

/-- Witness for C4 with one preceding small request and an oversize request of
5000 bytes. -/
theorem firstFit_oversized_fresh_bin_witness :
    (assignList ffInit ([100] ++ [5000])).1
      = (assignList ffInit [100]).1 ++ [(assignList ffInit [100]).2.binCount] ∧
    (assignList ffInit [100]).2.binCount ∉ (assignList ffInit [100]).1 :=
  firstFit_oversized_fresh_bin.1 [100] 5000 (by decide)

/-- Claim C10: every multimap entry of the first-fit packer keeps a free space
of at least the minimum function size 2 and strictly below the capacity 4096,
across any assignToBin call (any request size, zero included); and a bin
discarded from the multimap (because its free space fell below 2) never
receives another request in any continuation of the run. -/
theorem firstFit_state_invariant :
    (∀ s sz, (∀ e ∈ s.bins, 2 ≤ e.1 ∧ e.1 < 4096) →
      ∀ e ∈ (assignToBin s sz).2.bins, 2 ≤ e.1 ∧ e.1 < 4096) ∧
    (∀ s l b, SInv s → b < s.binCount → b ∉ s.bins.map Prod.snd →
      b ∉ (assignList s l).1) := by
  constructor
  · intro s sz hent e he
    cases hm : findFit sz s.bins with
    | some p =>
      obtain ⟨⟨k, b⟩, rest⟩ := p
      rw [assign_found hm] at he
      dsimp only at he
      obtain ⟨hperm, hsz⟩ := findFit_sound _ _ _ _ hm
      have hrest : ∀ x ∈ rest, x ∈ s.bins := fun x hx =>
        hperm.mem_iff.mpr (List.mem_cons_of_mem _ hx)
      have hkb : (k, b) ∈ s.bins := hperm.mem_iff.mpr (List.mem_cons_self _ _)
      by_cases hg : minFnSize ≤ k - sz
      · rw [if_pos hg] at he
        rcases mem_of_mem_mmInsert he with rfl | he'
        · exact ⟨hg, lt_of_le_of_lt (Nat.sub_le _ _) (hent _ hkb).2⟩
        · exact hent e (hrest e he')
      · rw [if_neg hg] at he
        exact hent e (hrest e he)
    | none =>
      rw [assign_fresh hm] at he
      dsimp only at he
      by_cases hg : minFnSize ≤ (if sz % binSize = 0 then 0 else binSize - sz % binSize)
      · rw [if_pos hg] at he
        rcases mem_of_mem_mmInsert he with rfl | he'
        · refine ⟨hg, ?_⟩
          by_cases hr : sz % binSize = 0
          · rw [if_pos hr] at hg; exact absurd hg (by decide)
          · rw [if_neg hr]
            exact Nat.sub_lt (by decide) (Nat.pos_of_ne_zero hr)
        · exact hent e he'
      · rw [if_neg hg] at he
        exact hent e he
  · intro s l b hs hb hn
    exact dead_bin l s b hs hb hn

/-- Witness for C10: one step on a reachable state, and a discarded bin (id 4,
absent from the multimap) that never reappears. -/
theorem firstFit_state_invariant_witness :
    (2 ≤ 995 ∧ 995 < 4096) ∧
    4 ∉ (assignList ⟨[(1095, 2)], 5⟩ [100, 4000]).1 :=
  ⟨firstFit_state_invariant.1 ⟨[(1095, 2), (1096, 1)], 3⟩ 100 (by decide) (995, 2)
     (by decide),
   firstFit_state_invariant.2 ⟨[(1095, 2)], 5⟩ [100, 4000] 4
     ⟨by decide, by decide, by decide⟩ (by decide) (by decide)⟩

/-- Claim C2: the call-graph packer on the standard example (eight nodes of
sizes 600, 800, 3500, 1000, 1000, 1000, 4000, 100; caller-to-callee edges
0-1, 0-2, 1-3, 1-4, 1-5, 2-6, 2-7 added bottom-up; capacity 4096) assigns
bins 4, 2, 3, 2, 2, 2, 1, 3 to node ids 0 through 7. -/
theorem callGraph_standardExample :
    ((List.range 8).map (fun i => (computeAssignments standardExampleNodes).lookup i))
      = [some 4, some 2, some 3, some 2, some 2, some 2, some 1, some 3] := by decide

theorem getD_eraseIdx_lt : ∀ (l : List CPEntry) (k i : Nat), i < k →
    (l.eraseIdx k).getD i cpDflt = l.getD i cpDflt := by
  intro l
  induction l with
  | nil => intro k i _; rfl
  | cons a as ih =>
    intro k i hik
    cases k with
    | zero => exact absurd hik (Nat.not_lt_zero i)
    | succ k' =>
      cases i with
      | zero => rfl
      | succ i' =>
        simp only [List.eraseIdx, List.getD_cons_succ]
        exact ih k' i' (by omega)

theorem drop_eraseIdx : ∀ (l : List CPEntry) (k : Nat),
    (l.eraseIdx k).drop k = l.drop (k + 1) := by
  intro l
  induction l with
  | nil => intro k; cases k <;> rfl
  | cons a as ih =>
    intro k
    cases k with
    | zero => rfl
    | succ k' =>
      simp only [List.eraseIdx, List.drop_succ_cons]
      exact ih k'

theorem drop_eq_getD_cons : ∀ (l : List CPEntry) (k : Nat), k < l.length →
    l.drop k = l.getD k cpDflt :: l.drop (k + 1) := by
  intro l
  induction l with
  | nil => intro k h; simp at h
  | cons a as ih =>
    intro k hk
    cases k with
    | zero => rfl
    | succ k' =>
      simp only [List.drop_succ_cons, List.getD_cons_succ]
      exact ih k' (by simpa using hk)

theorem survIdx_succ (ws : List Nat) (k : Nat) :
    survIdx ws (k + 1) = survIdx ws k ++ (if k ∈ ws then [] else [k]) := by
  rw [survIdx, survIdx, List.range_succ, List.filter_append]
  by_cases hw : k ∈ ws
  · rw [if_pos hw]
    simp [hw]
  · rw [if_neg hw]
    simp [hw]

theorem eraseRevAux_eq (ws : List Nat) : ∀ (k : Nat) (pool : List CPEntry),
    k ≤ pool.length →
    eraseRevAux ws k pool =
      (survIdx ws k).map (fun i => pool.getD i cpDflt) ++ pool.drop k := by
  intro k
  induction k with
  | zero => intro pool _; simp [eraseRevAux, survIdx]
  | succ k ih =>
    intro pool hk
    rw [eraseRevAux, survIdx_succ]
    by_cases hw : k ∈ ws
    · rw [if_pos hw]
      have hlen : (pool.eraseIdx k).length = pool.length - 1 := by
        rw [List.length_eraseIdx]
        exact if_pos (by omega)
      rw [ih _ (by omega)]
      rw [if_pos hw, List.append_nil]
      congr 1
      · apply List.map_congr_left
        intro i hi
        have : i < k := by
          have := List.mem_range.mp (List.mem_of_mem_filter hi)
          exact this
        exact getD_eraseIdx_lt pool k i this
      · exact drop_eraseIdx pool k
    · rw [if_neg hw, ih _ (by omega), if_neg hw]
      rw [List.map_append, List.append_assoc]
      congr 1
      rw [drop_eq_getD_cons pool k (by omega)]
      rfl

theorem eraseRevAux_survivors (ws : List Nat) (pool : List CPEntry) :
    eraseRevAux ws pool.length pool = survivors ws pool := by
  rw [eraseRevAux_eq ws pool.length pool (le_refl _), List.drop_length, List.append_nil]
  rfl

theorem survIdx_length_mono (ws : List Nat) (m : Nat) :
    (survIdx ws m).length ≤ (survIdx ws (m + 1)).length := by
  rw [survIdx_succ, List.length_append]
  exact Nat.le_add_right _ _

theorem survIdx_length_lt (ws : List Nat) (idx : Nat) (hw : ¬ idx ∈ ws) :
    ∀ m, idx < m → (survIdx ws idx).length < (survIdx ws m).length := by
  intro m
  induction m with
  | zero => intro h; exact absurd h (Nat.not_lt_zero idx)
  | succ m ih =>
    intro hidx
    rcases Nat.lt_or_ge idx m with h1 | h1
    · exact lt_of_lt_of_le (ih h1) (survIdx_length_mono ws m)
    · have : idx = m := by omega
      subst this
      rw [survIdx_succ, if_neg hw, List.length_append]
      simp

theorem survIdx_get (ws : List Nat) : ∀ (n idx : Nat), idx < n → ¬ idx ∈ ws →
    (survIdx ws n).get? (survIdx ws idx).length = some idx := by
  intro n
  induction n with
  | zero => intro idx h; exact absurd h (Nat.not_lt_zero idx)
  | succ m ih =>
    intro idx hidx hw
    rw [survIdx_succ]
    rcases Nat.lt_or_ge idx m with h1 | h1
    · rw [List.get?_append (survIdx_length_lt ws idx hw m h1)]
      exact ih idx h1 hw
    · have : idx = m := by omega
      subst this
      rw [if_neg hw]
      exact List.get?_concat_length _ _

theorem cpMapping_eq (ws : List Nat) (idx : Nat) (h : ¬ idx ∈ ws) :
    cpMapping ws idx = some (survIdx ws idx).length := by
  rw [cpMapping, if_neg h]
  rfl

theorem get?_eq_getD : ∀ (l : List CPEntry) (idx : Nat), idx < l.length →
    l.get? idx = some (l.getD idx cpDflt) := by
  intro l
  induction l with
  | nil => intro idx h; simp at h
  | cons a as ih =>
    intro idx hidx
    cases idx with
    | zero => rfl
    | succ i => exact ih i (by simpa using hidx)

/-- Claim C6 (spec P10): under the precondition that all instruction uses of
deleted (intra-bin) constant-pool entries were erased during rewriting, the
renumbering of deleteCPEntries is total: no surviving constant-pool-index use
maps to the source's -1 (the assertion branch is unreachable), every rewritten
index refers to the same, still-existing entry of the new pool, and erasing
the dead entries in reverse index order leaves exactly the surviving entries
in order. -/
theorem deleteCPEntries_renumbering (mf : MFunc) (ws : List Nat)
    (huse : ∀ m ∈ mf.instrs, ∀ idx, MOperand.cpi idx ∈ m.ops →
      idx < mf.pool.length ∧ ¬ idx ∈ ws) :
    (∀ m ∈ mf.instrs, ∀ idx, MOperand.cpi idx ∈ m.ops → cpMapping ws idx ≠ none) ∧
    (∀ m ∈ mf.instrs, ∀ idx, MOperand.cpi idx ∈ m.ops →
      ∃ new, remapOp ws (MOperand.cpi idx) = MOperand.cpi new ∧
        new < (deleteCPEntries mf ws).pool.length ∧
        (deleteCPEntries mf ws).pool.get? new = mf.pool.get? idx) ∧
    (deleteCPEntries mf ws).pool = survivors ws mf.pool := by
  have hpool : (deleteCPEntries mf ws).pool = survivors ws mf.pool :=
    eraseRevAux_survivors ws mf.pool
  refine ⟨?_, ?_, hpool⟩
  · intro m hm idx hidx
    rw [cpMapping_eq ws idx (huse m hm idx hidx).2]
    exact Option.some_ne_none _
  · intro m hm idx hidx
    obtain ⟨hlt, hw⟩ := huse m hm idx hidx
    refine ⟨(survIdx ws idx).length, ?_, ?_, ?_⟩
    · rw [remapOp, cpMapping_eq ws idx hw]
    · rw [hpool, survivors, List.length_map]
      exact survIdx_length_lt ws idx hw mf.pool.length hlt
    · rw [hpool, survivors, List.get?_map, survIdx_get ws mf.pool.length idx hlt hw]
      exact (get?_eq_getD mf.pool idx hlt).symm

/-- Witness for C6 on a three-entry pool with dead index 1 and a single use of
index 2. -/
theorem deleteCPEntries_renumbering_witness :
    cpMapping [1] 2 ≠ none ∧ (deleteCPEntries mfW [1]).pool = survivors [1] mfW.pool := by
  have huse : ∀ m ∈ mfW.instrs, ∀ idx, MOperand.cpi idx ∈ m.ops →
      idx < mfW.pool.length ∧ ¬ idx ∈ [1] := by
    intro m hm idx hidx
    simp [mfW] at hm
    subst hm
    simp [predAL] at hidx
    subst hidx
    exact ⟨by decide, by decide⟩
  have h := deleteCPEntries_renumbering mfW [1] huse
  refine ⟨?_, h.2.2⟩
  exact h.1 ⟨0, MOpcode.t2LDRpci, false, true, [MOperand.cpi 2] ++ predAL, [1]⟩
    (by simp [mfW]) 2 (by simp [predAL])

theorem eraseInstr_pool (mf : MFunc) (i : Nat) : (eraseInstr mf i).pool = mf.pool := rfl

theorem insertBefore_pool (mf : MFunc) (i : Nat) (news : List MInstr) :
    (insertBefore mf i news).pool = mf.pool := rfl

theorem rewriteBX_pool (mf : MFunc) (mi : MInstr) (c : Nat) :
    (rewriteBX mf mi c).pool = mf.pool ++ [⟨true, true, CPMod.noMod, some c⟩] := rfl

theorem replaceWithDirectCall_pool (mf : MFunc) (mi : MInstr) (c : Nat) :
    (replaceWithDirectCall mf mi c).pool = mf.pool := by
  rw [replaceWithDirectCall]
  cases toDirectCall mi.opcode with
  | none => rfl
  | some o => rfl

theorem optLoop_pool (callee : Nat) : ∀ (fuel : Nat) (stack : List Nat) (mf : MFunc),
    ∃ ext, (optLoop callee fuel stack mf).pool = mf.pool ++ ext ∧
      ∀ e ∈ ext, e.modifier = CPMod.noMod := by
  intro fuel
  induction fuel with
  | zero =>
    intro stack mf
    exact ⟨[], (List.append_nil _).symm, by simp⟩
  | succ fuel ih =>
    intro stack mf
    cases stack with
    | nil => exact ⟨[], (List.append_nil _).symm, by simp⟩
    | cons i rest =>
      rw [optLoop]
      cases hf : findInstr mf i with
      | none => exact ih rest mf
      | some mi =>
        dsimp only
        by_cases hc : ¬ mi.isCall = true
        · rw [if_pos hc]
          obtain ⟨ext, hext, hmod⟩ := ih _ (eraseInstr mf mi.mid)
          exact ⟨ext, by rw [hext, eraseInstr_pool], hmod⟩
        · rw [if_neg hc]
          by_cases hbx : isBXCall mi.opcode = true
          · rw [if_pos hbx]
            obtain ⟨ext, hext, hmod⟩ := ih rest (rewriteBX mf mi callee)
            refine ⟨⟨true, true, CPMod.noMod, some callee⟩ :: ext, ?_, ?_⟩
            · rw [hext, rewriteBX_pool, List.append_assoc]
              rfl
            · intro e he
              rcases List.mem_cons.mp he with rfl | h2
              · rfl
              · exact hmod e h2
          · rw [if_neg hbx]
            obtain ⟨ext, hext, hmod⟩ := ih rest (replaceWithDirectCall mf mi callee)
            exact ⟨ext, by rw [hext, replaceWithDirectCall_pool], hmod⟩

theorem optStep_pool (mf : MFunc) (u : Nat) :
    ∃ ext, (optStep mf u).pool = mf.pool ++ ext ∧
      ∀ e ∈ ext, e.modifier = CPMod.noMod := by
  rw [optStep]
  cases hf : findInstr mf u with
  | none => exact ⟨[], (List.append_nil _).symm, by simp⟩
  | some mi =>
    dsimp only
    cases hg : getCPIndex mi with
    | none => exact ⟨[], (List.append_nil _).symm, by simp⟩
    | some idx =>
      dsimp only
      exact optLoop_pool _ _ _ _

theorem foldl_optStep_pool : ∀ (uses : List Nat) (mf : MFunc),
    ∃ ext, (uses.foldl optStep mf).pool = mf.pool ++ ext ∧
      ∀ e ∈ ext, e.modifier = CPMod.noMod := by
  intro uses
  induction uses with
  | nil => intro mf; exact ⟨[], (List.append_nil _).symm, by simp⟩
  | cons u rest ih =>
    intro mf
    rw [List.foldl_cons]
    obtain ⟨e1, he1, hm1⟩ := optStep_pool mf u
    obtain ⟨e2, he2, hm2⟩ := ih (optStep mf u)
    refine ⟨e1 ++ e2, ?_, ?_⟩
    · rw [he2, he1, List.append_assoc]
    · intro e he
      rcases List.mem_append.mp he with h | h
      · exact hm1 e h
      · exact hm2 e h

theorem getD_mem_cp {l : List CPEntry} {n : Nat} (h : n < l.length) :
    l.getD n cpDflt ∈ l := by
  induction l generalizing n with
  | nil => simp at h
  | cons a as ih =>
    cases n with
    | zero => simp
    | succ m =>
      simp only [List.getD_cons_succ]
      exact List.mem_cons_of_mem _ (ih (by simpa using h))

theorem getD_append_left_cp {l₁ l₂ : List CPEntry} {n : Nat} (h : n < l₁.length) :
    (l₁ ++ l₂).getD n cpDflt = l₁.getD n cpDflt := by
  induction l₁ generalizing n with
  | nil => simp at h
  | cons a as ih =>
    cases n with
    | zero => rfl
    | succ m =>
      simp only [List.cons_append, List.getD_cons_succ]
      exact ih (by simpa using h)

theorem getD_append_right_cp {l₁ l₂ : List CPEntry} {n : Nat} (h : l₁.length ≤ n) :
    (l₁ ++ l₂).getD n cpDflt = l₂.getD (n - l₁.length) cpDflt := by
  induction l₁ generalizing n with
  | nil => simp
  | cons a as ih =>
    cases n with
    | zero => simp at h
    | succ m =>
      simp only [List.cons_append, List.getD_cons_succ, List.length_cons]
      rw [ih (by simpa using h)]
      congr 1
      omega

theorem noMod_not_intra (g : Nat → GVInfo) (e : CPEntry) (bp : String)
    (h : e.modifier = CPMod.noMod) : isIntraBin g e bp = false := by
  rw [isIntraBin, h]
  simp

theorem not_intra_claim (g : Nat → GVInfo) (e : CPEntry) (bp : String)
    (h : isIntraBin g e bp = false) : claimIntra g e bp = false := by
  rw [claimIntra, h]
  simp

theorem mem_exists_getD {l : List CPEntry} {e : CPEntry} (h : e ∈ l) :
    ∃ i, i < l.length ∧ l.getD i cpDflt = e := by
  induction l with
  | nil => cases h
  | cons a as ih =>
    rcases List.mem_cons.mp h with rfl | h2
    · exact ⟨0, by simp, rfl⟩
    · obtain ⟨i, hi, hgi⟩ := ih h2
      exact ⟨i + 1, by simpa using hi, hgi⟩

theorem runOptimizer_eq (g : Nat → GVInfo) (mf : MFunc) (bp : String)
    (hp : mf.pagerando = true) (hsk : mf.skipped = false) (hpfx : mf.secPfx = some bp) :
    runOptimizer g mf =
      (if ((List.range mf.pool.length).filter
            (fun i => isIntraBin g (mf.pool.getD i cpDflt) bp)).isEmpty then mf
       else
        deleteCPEntries
          (((mf.instrs.filter (fun m =>
              match getCPIndex m with
              | some idx => idx ∈ (List.range mf.pool.length).filter
                  (fun i => isIntraBin g (mf.pool.getD i cpDflt) bp)
              | none => false)).map (fun m => m.mid)).foldl optStep mf)
          ((List.range mf.pool.length).filter
            (fun i => isIntraBin g (mf.pool.getD i cpDflt) bp))) := by
  simp only [runOptimizer, hp, hsk, hpfx]
  simp

theorem runOptimizer_pool_clean (g : Nat → GVInfo) (mf : MFunc) (bp : String)
    (hp : mf.pagerando = true) (hsk : mf.skipped = false) (hpfx : mf.secPfx = some bp) :
    ∀ e ∈ (runOptimizer g mf).pool, isIntraBin g e bp = false := by
  intro e he
  rw [runOptimizer_eq g mf bp hp hsk hpfx] at he
  by_cases hws : ((List.range mf.pool.length).filter
      (fun i => isIntraBin g (mf.pool.getD i cpDflt) bp)).isEmpty = true
  · rw [if_pos hws] at he
    have hnil : (List.range mf.pool.length).filter
        (fun i => isIntraBin g (mf.pool.getD i cpDflt) bp) = [] :=
      List.isEmpty_iff.mp hws
    obtain ⟨i, hi, hgi⟩ := mem_exists_getD he
    rcases Bool.eq_false_or_eq_true (isIntraBin g (mf.pool.getD i cpDflt) bp) with h | h
    swap
    · rw [← hgi]; exact h
    · exfalso
      have : i ∈ (List.range mf.pool.length).filter
          (fun i => isIntraBin g (mf.pool.getD i cpDflt) bp) :=
        List.mem_filter.mpr ⟨List.mem_range.mpr hi, h⟩
      rw [hnil] at this
      cases this
  · rw [if_neg hws] at he
    have hpool :
        (deleteCPEntries
          (((mf.instrs.filter (fun m =>
              match getCPIndex m with
              | some idx => idx ∈ (List.range mf.pool.length).filter
                  (fun i => isIntraBin g (mf.pool.getD i cpDflt) bp)
              | none => false)).map (fun m => m.mid)).foldl optStep mf)
          ((List.range mf.pool.length).filter
            (fun i => isIntraBin g (mf.pool.getD i cpDflt) bp))).pool
        = survivors ((List.range mf.pool.length).filter
            (fun i => isIntraBin g (mf.pool.getD i cpDflt) bp))
          (((mf.instrs.filter (fun m =>
              match getCPIndex m with
              | some idx => idx ∈ (List.range mf.pool.length).filter
                  (fun i => isIntraBin g (mf.pool.getD i cpDflt) bp)
              | none => false)).map (fun m => m.mid)).foldl optStep mf).pool :=
      eraseRevAux_survivors _ _
    rw [hpool] at he
    obtain ⟨i, hiSurv, hfi⟩ := List.mem_map.mp he
    have hiRange := List.mem_filter.mp hiSurv
    have hiLen : i < (((mf.instrs.filter (fun m =>
        match getCPIndex m with
        | some idx => idx ∈ (List.range mf.pool.length).filter
            (fun i => isIntraBin g (mf.pool.getD i cpDflt) bp)
        | none => false)).map (fun m => m.mid)).foldl optStep mf).pool.length :=
      List.mem_range.mp hiRange.1
    have hiws : ¬ i ∈ (List.range mf.pool.length).filter
        (fun i => isIntraBin g (mf.pool.getD i cpDflt) bp) :=
      of_decide_eq_true hiRange.2
    obtain ⟨ext, hext, hmod⟩ := foldl_optStep_pool
      ((mf.instrs.filter (fun m =>
        match getCPIndex m with
        | some idx => idx ∈ (List.range mf.pool.length).filter
            (fun i => isIntraBin g (mf.pool.getD i cpDflt) bp)
        | none => false)).map (fun m => m.mid)) mf
    rw [← hfi, hext]
    rcases Nat.lt_or_ge i mf.pool.length with hlt | hge
    · rw [getD_append_left_cp hlt]
      rcases Bool.eq_false_or_eq_true (isIntraBin g (mf.pool.getD i cpDflt) bp) with h | h
      swap
      · exact h
      · exact absurd (List.mem_filter.mpr ⟨List.mem_range.mpr hlt, h⟩) hiws
    · rw [getD_append_right_cp hge]
      apply noMod_not_intra
      apply hmod
      apply getD_mem_cp
      rw [hext, List.length_append] at hiLen
      omega

theorem mem_insertBefore (mf : MFunc) (k : Nat) (news : List MInstr) {i : MInstr}
    (h : i ∈ mf.instrs) : i ∈ (insertBefore mf k news).instrs := by
  apply List.mem_flatMap.mpr
  refine ⟨i, h, ?_⟩
  by_cases hk : i.mid = k
  · rw [if_pos hk]
    exact List.mem_append_right _ (List.mem_singleton.mpr rfl)
  · rw [if_neg hk]
    exact List.mem_singleton.mpr rfl

theorem mem_insertBefore_news (mf : MFunc) (k : Nat) (news : List MInstr) {m : MInstr}
    (hm : m ∈ mf.instrs) (hk : m.mid = k) {x : MInstr} (hx : x ∈ news) :
    x ∈ (insertBefore mf k news).instrs := by
  apply List.mem_flatMap.mpr
  refine ⟨m, hm, ?_⟩
  rw [if_pos hk]
  exact List.mem_append_left _ hx

theorem mem_insertBefore_cases (mf : MFunc) (k : Nat) (news : List MInstr) {x : MInstr}
    (hx : x ∈ (insertBefore mf k news).instrs) : x ∈ news ∨ x ∈ mf.instrs := by
  obtain ⟨m, hm, hxm⟩ := List.mem_flatMap.mp hx
  by_cases hk : m.mid = k
  · rw [if_pos hk] at hxm
    rcases List.mem_append.mp hxm with h | h
    · exact Or.inl h
    · exact Or.inr (List.mem_singleton.mp h ▸ hm)
  · rw [if_neg hk] at hxm
    exact Or.inr (List.mem_singleton.mp hxm ▸ hm)

theorem mem_updInstr (mf : MFunc) (k : Nat) (f : MInstr → MInstr) {i : MInstr}
    (h : i ∈ mf.instrs) :
    (if i.mid = k then f i else i) ∈ (updInstr mf k f).instrs :=
  List.mem_map.mpr ⟨i, h, rfl⟩

theorem mem_eraseInstr (mf : MFunc) (k : Nat) {i : MInstr} (h : i ∈ mf.instrs)
    (hne : ¬ i.mid = k) : i ∈ (eraseInstr mf k).instrs :=
  List.mem_filter.mpr ⟨h, decide_eq_true hne⟩

theorem eraseInstr_not_mem (mf : MFunc) (k : Nat) :
    ∀ i ∈ (eraseInstr mf k).instrs, ¬ i.mid = k := fun i hi =>
  of_decide_eq_true (List.mem_filter.mp hi).2

theorem mem_of_eraseInstr {mf : MFunc} {k : Nat} {i : MInstr}
    (h : i ∈ (eraseInstr mf k).instrs) : i ∈ mf.instrs :=
  (List.mem_filter.mp h).1

theorem findInstr_mem {mf : MFunc} {k : Nat} {mi : MInstr}
    (h : findInstr mf k = some mi) : mi ∈ mf.instrs :=
  List.mem_of_find?_eq_some h

theorem replaceWithDirectCall_step (mf : MFunc) (mi : MInstr) (callee : Nat) (opc : MOpcode)
    (hmem : mi ∈ mf.instrs) (hopc : toDirectCall mi.opcode = some opc)
    (hfresh : ¬ mi.mid = mf.nextId) :
    (∀ i ∈ (replaceWithDirectCall mf mi callee).instrs, ¬ i.mid = mi.mid) ∧
    (⟨mf.nextId, opc, true, false,
       (if opc = MOpcode.tBL then predAL else []) ++ [MOperand.globalAddr callee]
         ++ mi.ops.drop (if opc = MOpcode.tBL then 3 else 1), []⟩ : MInstr)
      ∈ (replaceWithDirectCall mf mi callee).instrs := by
  rw [replaceWithDirectCall, hopc]
  dsimp only
  constructor
  · intro i hi
    exact eraseInstr_not_mem _ _ i hi
  · apply mem_eraseInstr
    · exact mem_insertBefore_news _ _ _ hmem rfl (List.mem_singleton.mpr rfl)
    · exact fun hc => hfresh hc.symm

theorem rewriteBX_mem (mf : MFunc) (mi : MInstr) (callee : Nat) {i : MInstr}
    (h : i ∈ mf.instrs) :
    (if i.mid = mi.mid then
      { i with ops := match i.ops with
                      | _ :: rest => MOperand.reg (mf.nextReg + 1) :: rest
                      | [] => [] }
     else i) ∈ (rewriteBX mf mi callee).instrs :=
  mem_updInstr _ _ _ (mem_insertBefore _ _ _ h)

theorem rewriteBX_step (mf : MFunc) (mi : MInstr) (callee r : Nat) (rest : List MOperand)
    (hmem : mi ∈ mf.instrs) (hops : mi.ops = MOperand.reg r :: rest)
    (h1 : ¬ mi.mid = mf.nextId) (h2 : ¬ mi.mid = mf.nextId + 1) :
    ({ mi with ops := MOperand.reg (mf.nextReg + 1) :: rest } : MInstr)
        ∈ (rewriteBX mf mi callee).instrs ∧
    (rewriteBX mf mi callee).pool.get? mf.pool.length
        = some ⟨true, true, CPMod.noMod, some callee⟩ ∧
    ((⟨mf.nextId, if mf.isThumb2 then MOpcode.t2LDRpci else MOpcode.LDRcp, false, true,
        [MOperand.cpi mf.pool.length]
          ++ (if (if mf.isThumb2 then MOpcode.t2LDRpci else MOpcode.LDRcp) = MOpcode.LDRcp
              then [MOperand.imm 0] else []) ++ predAL, [mf.nextReg]⟩ : MInstr)
      ∈ (rewriteBX mf mi callee).instrs) ∧
    ((⟨mf.nextId + 1, if mf.isThumb then MOpcode.tPICADD else MOpcode.PICADD, false, false,
        [MOperand.reg mf.nextReg, MOperand.imm (Int.ofNat mf.nextLabel)]
          ++ (if mf.isThumb then [] else predAL), [mf.nextReg + 1]⟩ : MInstr)
      ∈ (rewriteBX mf mi callee).instrs) := by
  refine ⟨?_, ?_, ?_, ?_⟩
  · have h := rewriteBX_mem mf mi callee hmem
    rw [if_pos rfl, hops] at h
    exact h
  · exact List.get?_concat_length mf.pool _
  · have h := mem_updInstr
      (insertBefore
        { mf with pool := mf.pool ++ [⟨true, true, CPMod.noMod, some callee⟩],
                  nextReg := mf.nextReg + 2, nextId := mf.nextId + 2,
                  nextLabel := mf.nextLabel + 1 } mi.mid
        [⟨mf.nextId, if mf.isThumb2 then MOpcode.t2LDRpci else MOpcode.LDRcp, false, true,
           [MOperand.cpi mf.pool.length]
             ++ (if (if mf.isThumb2 then MOpcode.t2LDRpci else MOpcode.LDRcp) = MOpcode.LDRcp
                 then [MOperand.imm 0] else []) ++ predAL, [mf.nextReg]⟩,
         ⟨mf.nextId + 1, if mf.isThumb then MOpcode.tPICADD else MOpcode.PICADD, false, false,
           [MOperand.reg mf.nextReg, MOperand.imm (Int.ofNat mf.nextLabel)]
             ++ (if mf.isThumb then [] else predAL), [mf.nextReg + 1]⟩])
      mi.mid
      (fun m => { m with ops := match m.ops with
                                | _ :: rest => MOperand.reg (mf.nextReg + 1) :: rest
                                | [] => [] })
      (mem_insertBefore_news _ mi.mid _ hmem rfl (List.mem_cons_self _ _))
    dsimp only at h
    rw [if_neg (show ¬ mf.nextId = mi.mid from fun hc => h1 hc.symm)] at h
    exact h
  · have h := mem_updInstr
      (insertBefore
        { mf with pool := mf.pool ++ [⟨true, true, CPMod.noMod, some callee⟩],
                  nextReg := mf.nextReg + 2, nextId := mf.nextId + 2,
                  nextLabel := mf.nextLabel + 1 } mi.mid
        [⟨mf.nextId, if mf.isThumb2 then MOpcode.t2LDRpci else MOpcode.LDRcp, false, true,
           [MOperand.cpi mf.pool.length]
             ++ (if (if mf.isThumb2 then MOpcode.t2LDRpci else MOpcode.LDRcp) = MOpcode.LDRcp
                 then [MOperand.imm 0] else []) ++ predAL, [mf.nextReg]⟩,
         ⟨mf.nextId + 1, if mf.isThumb then MOpcode.tPICADD else MOpcode.PICADD, false, false,
           [MOperand.reg mf.nextReg, MOperand.imm (Int.ofNat mf.nextLabel)]
             ++ (if mf.isThumb then [] else predAL), [mf.nextReg + 1]⟩])
      mi.mid
      (fun m => { m with ops := match m.ops with
                                | _ :: rest => MOperand.reg (mf.nextReg + 1) :: rest
                                | [] => [] })
      (mem_insertBefore_news _ mi.mid _ hmem rfl
        (List.mem_cons_of_mem _ (List.mem_singleton.mpr rfl)))
    dsimp only at h
    rw [if_neg (show ¬ mf.nextId + 1 = mi.mid from fun hc => h2 hc.symm)] at h
    exact h

theorem rewriteBX_mem_inv (mf : MFunc) (mi : MInstr) (callee : Nat) {x : MInstr}
    (hx : x ∈ (rewriteBX mf mi callee).instrs) :
    (x.mid = mf.nextId ∨ x.mid = mf.nextId + 1) ∨
    ∃ m ∈ mf.instrs, x.mid = m.mid ∧ x.opcode = m.opcode ∧ x.isCall = m.isCall := by
  obtain ⟨m, hm, hEq⟩ := List.mem_map.mp hx
  have hfld : x.mid = m.mid ∧ x.opcode = m.opcode ∧ x.isCall = m.isCall := by
    rw [← hEq]
    dsimp only
    by_cases hc : m.mid = mi.mid
    · rw [if_pos hc]
      exact ⟨rfl, rfl, rfl⟩
    · rw [if_neg hc]
      exact ⟨rfl, rfl, rfl⟩
  rcases mem_insertBefore_cases _ _ _ hm with hnews | hold
  · left
    rcases List.mem_cons.mp hnews with rfl | h2
    · exact Or.inl hfld.1
    · obtain rfl := List.mem_singleton.mp h2
      exact Or.inr hfld.1
  · exact Or.inr ⟨m, hold, hfld.1, hfld.2.1, hfld.2.2⟩

theorem toDirectCall_bx (o : MOpcode) (h : isBXCall o = true) : toDirectCall o = none := by
  rw [isBXCall] at h
  simp only [Bool.or_eq_true, decide_eq_true_eq] at h
  rcases h with rfl | rfl <;> rfl

theorem bxTracked_eraseNonCall (k : Nat) (opc : MOpcode) (mf : MFunc) (mi : MInstr)
    (hmem : mi ∈ mf.instrs) (hnc : ¬ mi.isCall = true)
    (h : bxTracked k opc mf) : bxTracked k opc (eraseInstr mf mi.mid) := by
  obtain ⟨hb, ⟨j, hj, hjk⟩, hall⟩ := h
  have hne : ¬ mi.mid = k := fun hc => hnc (hall mi hmem hc).2
  refine ⟨?_, ⟨j, mem_eraseInstr mf mi.mid hj ?_, hjk⟩, ?_⟩
  · intro m hm
    exact hb m (mem_of_eraseInstr hm)
  · intro hc
    exact hne (by rw [← hc]; exact hjk)
  · intro j' hj' hk
    exact hall j' (mem_of_eraseInstr hj') hk

theorem bxTracked_rewriteBX (k : Nat) (opc : MOpcode) (mf : MFunc) (mi : MInstr)
    (callee : Nat) (h : bxTracked k opc mf) : bxTracked k opc (rewriteBX mf mi callee) := by
  obtain ⟨hb, ⟨j, hj, hjk⟩, hall⟩ := h
  have hklt : k < mf.nextId := hjk ▸ hb j hj
  refine ⟨?_, ?_, ?_⟩
  · intro m hm
    rcases rewriteBX_mem_inv mf mi callee hm with h1 | ⟨m0, hm0, hmid, _, _⟩
    · show m.mid < mf.nextId + 2
      rcases h1 with h1 | h1 <;> omega
    · show m.mid < mf.nextId + 2
      have := hb m0 hm0
      omega
  · have hmem := rewriteBX_mem mf mi callee hj
    by_cases hc : j.mid = mi.mid
    · rw [if_pos hc] at hmem
      exact ⟨_, hmem, hjk⟩
    · rw [if_neg hc] at hmem
      exact ⟨j, hmem, hjk⟩
  · intro j' hj' hk
    rcases rewriteBX_mem_inv mf mi callee hj' with h1 | ⟨m0, hm0, hmid, hopc, hic⟩
    · exfalso
      rw [hk] at h1
      rcases h1 with h1 | h1 <;> omega
    · have hres := hall m0 hm0 (by rw [← hmid]; exact hk)
      exact ⟨by rw [hopc]; exact hres.1, by rw [hic]; exact hres.2⟩

theorem bxTracked_direct (k : Nat) (opc : MOpcode) (hbx : isBXCall opc = true)
    (mf : MFunc) (mi : MInstr) (callee : Nat) (hmem : mi ∈ mf.instrs)
    (h : bxTracked k opc mf) : bxTracked k opc (replaceWithDirectCall mf mi callee) := by
  obtain ⟨hb, ⟨j, hj, hjk⟩, hall⟩ := h
  have hklt : k < mf.nextId := hjk ▸ hb j hj
  cases hd : toDirectCall mi.opcode with
  | none =>
    rw [replaceWithDirectCall, hd]
    exact ⟨hb, ⟨j, hj, hjk⟩, hall⟩
  | some opc2 =>
    have hne : ¬ mi.mid = k := by
      intro hc
      have h2 := (hall mi hmem hc).1
      rw [h2, toDirectCall_bx opc hbx] at hd
      exact Option.noConfusion hd
    rw [replaceWithDirectCall, hd]
    dsimp only
    refine ⟨?_, ?_, ?_⟩
    · intro m hm
      rcases mem_insertBefore_cases _ _ _ (mem_of_eraseInstr hm) with hn | ho
      · obtain rfl := List.mem_singleton.mp hn
        show mf.nextId < mf.nextId + 1
        omega
      · show m.mid < mf.nextId + 1
        have := hb m ho
        omega
    · refine ⟨j, mem_eraseInstr _ _ (mem_insertBefore _ _ _ hj) ?_, hjk⟩
      intro hc
      exact hne (by rw [← hc]; exact hjk)
    · intro j' hj' hk
      rcases mem_insertBefore_cases _ _ _ (mem_of_eraseInstr hj') with hn | ho
      · obtain rfl := List.mem_singleton.mp hn
        exfalso
        have hEq : mf.nextId = k := hk
        omega
      · exact hall j' ho hk

theorem optLoop_bx (callee k : Nat) (opc : MOpcode) (hbx : isBXCall opc = true) :
    ∀ (fuel : Nat) (stack : List Nat) (mf : MFunc),
      bxTracked k opc mf → bxTracked k opc (optLoop callee fuel stack mf) := by
  intro fuel
  induction fuel with
  | zero => intro stack mf h; exact h
  | succ fuel ih =>
    intro stack mf h
    cases stack with
    | nil => exact h
    | cons i rest =>
      rw [optLoop]
      cases hf : findInstr mf i with
      | none => exact ih rest mf h
      | some mi =>
        dsimp only
        by_cases hc : ¬ mi.isCall = true
        · rw [if_pos hc]
          exact ih _ _ (bxTracked_eraseNonCall k opc mf mi (findInstr_mem hf) hc h)
        · rw [if_neg hc]
          by_cases hbxc : isBXCall mi.opcode = true
          · rw [if_pos hbxc]
            exact ih _ _ (bxTracked_rewriteBX k opc mf mi callee h)
          · rw [if_neg hbxc]
            exact ih _ _ (bxTracked_direct k opc hbx mf mi callee (findInstr_mem hf) h)

theorem optStep_bx (k : Nat) (opc : MOpcode) (hbx : isBXCall opc = true) (mf : MFunc)
    (u : Nat) (h : bxTracked k opc mf) : bxTracked k opc (optStep mf u) := by
  rw [optStep]
  cases hf : findInstr mf u with
  | none => exact h
  | some mi =>
    dsimp only
    cases hg : getCPIndex mi with
    | none => exact h
    | some idx =>
      dsimp only
      exact optLoop_bx _ k opc hbx _ _ _ h

theorem foldl_optStep_bx (k : Nat) (opc : MOpcode) (hbx : isBXCall opc = true) :
    ∀ (uses : List Nat) (mf : MFunc), bxTracked k opc mf →
      bxTracked k opc (uses.foldl optStep mf) := by
  intro uses
  induction uses with
  | nil => intro mf h; exact h
  | cons u rest ih =>
    intro mf h
    rw [List.foldl_cons]
    exact ih _ (optStep_bx k opc hbx mf u h)

theorem bxTracked_deleteCP (k : Nat) (opc : MOpcode) (mf : MFunc) (ws : List Nat)
    (h : bxTracked k opc mf) : bxTracked k opc (deleteCPEntries mf ws) := by
  obtain ⟨hb, ⟨j, hj, hjk⟩, hall⟩ := h
  refine ⟨?_, ⟨_, List.mem_map.mpr ⟨j, hj, rfl⟩, hjk⟩, ?_⟩
  · intro m hm
    obtain ⟨m0, hm0, rfl⟩ := List.mem_map.mp hm
    exact hb m0 hm0
  · intro j' hj' hk
    obtain ⟨m0, hm0, rfl⟩ := List.mem_map.mp hj'
    exact hall m0 hm0 hk

theorem runOptimizer_bx (g : Nat → GVInfo) (mf : MFunc) (hok : midsOK mf)
    (i : MInstr) (hi : i ∈ mf.instrs) (hbx : isBXCall i.opcode = true)
    (hic : i.isCall = true) :
    ∃ j ∈ (runOptimizer g mf).instrs,
      j.mid = i.mid ∧ j.opcode = i.opcode ∧ j.isCall = true := by
  have hstart : bxTracked i.mid i.opcode mf := by
    refine ⟨hok.2, ⟨i, hi, rfl⟩, ?_⟩
    intro j hj hk
    have hji : j = i := List.inj_on_of_nodup_map hok.1 hj hi hk
    rw [hji]
    exact ⟨rfl, hic⟩
  rw [runOptimizer]
  by_cases hskip : (mf.skipped || !mf.pagerando) = true
  · rw [if_pos hskip]
    exact ⟨i, hi, rfl, rfl, hic⟩
  · rw [if_neg hskip]
    cases hp : mf.secPfx with
    | none => exact ⟨i, hi, rfl, rfl, hic⟩
    | some bp =>
      dsimp only
      by_cases hws : ((List.range mf.pool.length).filter
          (fun idx => isIntraBin g (mf.pool.getD idx cpDflt) bp)).isEmpty = true
      · rw [if_pos hws]
        exact ⟨i, hi, rfl, rfl, hic⟩
      · rw [if_neg hws]
        have hfin := bxTracked_deleteCP i.mid i.opcode
          (((mf.instrs.filter (fun m =>
              match getCPIndex m with
              | some idx => idx ∈ (List.range mf.pool.length).filter
                  (fun n => isIntraBin g (mf.pool.getD n cpDflt) bp)
              | none => false)).map (fun m => m.mid)).foldl optStep mf)
          ((List.range mf.pool.length).filter
            (fun n => isIntraBin g (mf.pool.getD n cpDflt) bp))
          (foldl_optStep_bx i.mid i.opcode hbx
            ((mf.instrs.filter (fun m =>
              match getCPIndex m with
              | some idx => idx ∈ (List.range mf.pool.length).filter
                  (fun n => isIntraBin g (mf.pool.getD n cpDflt) bp)
              | none => false)).map (fun m => m.mid)) mf hstart)
        obtain ⟨_, ⟨j, hj, hjk⟩, hall⟩ := hfin
        exact ⟨j, hj, hjk, (hall j hj hjk).1, (hall j hj hjk).2⟩

/-- Counterexample to claim C5 as stated: mfBX is a pagerando machine function
in bin .bin_1 whose POTOFF constant-pool entry 0 targets the same-bin pagerando
function 0, and whose candidate constant-pool load (instruction 0) feeds the
indirect call BX_CALL.  After the optimizer runs, the function contains no
direct call instruction at all (no BL, tBL or TCRETURNdi): the candidate call
site survives as the indirect BX_CALL, whose address operand was merely
redirected to a PC-relative materialization.  So not every candidate call site
is rewritten into a direct call. -/
theorem optimizer_bx_call_counterexample :
    mfBX.pagerando = true ∧ mfBX.secPfx = some ".bin_1" ∧
    isIntraBin gEx (mfBX.pool.getD 0 cpDflt) ".bin_1" = true ∧
    claimIntra gEx (mfBX.pool.getD 0 cpDflt) ".bin_1" = true ∧
    getCPIndex (mfBX.instrs.getD 0 ⟨0, MOpcode.generic 0, false, false, [], []⟩)
      = some 0 ∧
    ((runOptimizer gEx mfBX).instrs.any
      (fun i => i.opcode == MOpcode.BL || i.opcode == MOpcode.tBL ||
                i.opcode == MOpcode.TCRETURNdi) = false) ∧
    ((runOptimizer gEx mfBX).instrs.any
      (fun i => i.isCall && isBXCall i.opcode) = true) := by
  refine ⟨rfl, rfl, by decide, by decide, by decide, by decide, by decide⟩

/-- Claim C5 amended: after the ARM intra-bin optimizer runs on a pagerando
machine function with section prefix B, no instruction references a
constant-pool entry carrying a POTOFF or BINOFF modifier whose referenced
function is a pagerando function with the same prefix (all such entries are
deleted, and entries added by the pass carry no modifier).  Candidate call
sites are not all rewritten into direct calls: whenever the def-use rewriting
reaches a call with a direct form (BLX, tBLXr, TCRETURNri), it erases that
call and emits the corresponding direct call to the callee in its place; a
BX-style indirect call (BX_CALL, tBX_CALL) is never converted: on any machine
function with well-formed instruction identities it survives the entire pass
with its opcode intact and still marked a call, the rewriting step only
appending a fresh modifier-free constant-pool entry for the callee,
materializing its address with a PC-relative constant-pool load and PIC add,
and redirecting the call's address operand to the materialized register.  The
two concrete runs exhibit both behaviours. -/
theorem optimizer_intraBin_amended :
    (∀ g mf bp, mf.pagerando = true → mf.skipped = false → mf.secPfx = some bp →
      ∀ m ∈ (runOptimizer g mf).instrs, ∀ idx e, MOperand.cpi idx ∈ m.ops →
        (runOptimizer g mf).pool.get? idx = some e → claimIntra g e bp = false) ∧
    (∀ (mf : MFunc) (mi : MInstr) (callee : Nat) (opc : MOpcode),
      mi ∈ mf.instrs → toDirectCall mi.opcode = some opc → ¬ mi.mid = mf.nextId →
      (∀ m ∈ (replaceWithDirectCall mf mi callee).instrs, ¬ m.mid = mi.mid) ∧
      (⟨mf.nextId, opc, true, false,
         (if opc = MOpcode.tBL then predAL else []) ++ [MOperand.globalAddr callee]
           ++ mi.ops.drop (if opc = MOpcode.tBL then 3 else 1), []⟩ : MInstr)
        ∈ (replaceWithDirectCall mf mi callee).instrs) ∧
    (∀ (mf : MFunc) (mi : MInstr) (callee r : Nat) (rest : List MOperand),
      mi ∈ mf.instrs → mi.ops = MOperand.reg r :: rest →
      ¬ mi.mid = mf.nextId → ¬ mi.mid = mf.nextId + 1 →
      ({ mi with ops := MOperand.reg (mf.nextReg + 1) :: rest } : MInstr)
          ∈ (rewriteBX mf mi callee).instrs ∧
      (rewriteBX mf mi callee).pool.get? mf.pool.length
          = some ⟨true, true, CPMod.noMod, some callee⟩ ∧
      ((⟨mf.nextId, if mf.isThumb2 then MOpcode.t2LDRpci else MOpcode.LDRcp, false, true,
          [MOperand.cpi mf.pool.length]
            ++ (if (if mf.isThumb2 then MOpcode.t2LDRpci else MOpcode.LDRcp) = MOpcode.LDRcp
                then [MOperand.imm 0] else []) ++ predAL, [mf.nextReg]⟩ : MInstr)
        ∈ (rewriteBX mf mi callee).instrs) ∧
      ((⟨mf.nextId + 1, if mf.isThumb then MOpcode.tPICADD else MOpcode.PICADD, false, false,
          [MOperand.reg mf.nextReg, MOperand.imm (Int.ofNat mf.nextLabel)]
            ++ (if mf.isThumb then [] else predAL), [mf.nextReg + 1]⟩ : MInstr)
        ∈ (rewriteBX mf mi callee).instrs)) ∧
    (∀ (g : Nat → GVInfo) (mf : MFunc), midsOK mf →
      ∀ i ∈ mf.instrs, i.isCall = true → isBXCall i.opcode = true →
      ∃ j ∈ (runOptimizer g mf).instrs,
        j.mid = i.mid ∧ j.opcode = i.opcode ∧ j.isCall = true) ∧
    (runOptimizer gEx mfBLX).instrs
      = [⟨2, MOpcode.BL, true, false, [MOperand.globalAddr 0], []⟩] ∧
    (runOptimizer gEx mfBX).instrs
      = [⟨2, MOpcode.LDRcp, false, true,
          [MOperand.cpi 0, MOperand.imm 0] ++ predAL, [2]⟩,
         ⟨3, MOpcode.PICADD, false, false,
          [MOperand.reg 2, MOperand.imm 0] ++ predAL, [3]⟩,
         ⟨1, MOpcode.BX_CALL, true, false, [MOperand.reg 3], []⟩] := by
  refine ⟨?_, ?_, ?_, ?_, by decide, by decide⟩
  · intro g mf bp hp hsk hpfx m _ idx e _ hget
    exact not_intra_claim g e bp
      (runOptimizer_pool_clean g mf bp hp hsk hpfx e (List.get?_mem hget))
  · intro mf mi callee opc h1 h2 h3
    exact replaceWithDirectCall_step mf mi callee opc h1 h2 h3
  · intro mf mi callee r rest h1 h2 h3 h4
    exact rewriteBX_step mf mi callee r rest h1 h2 h3 h4
  · intro g mf hok i hi hic hbx
    exact runOptimizer_bx g mf hok i hi hbx hic

/-- Witness for the amended C5, instantiating every universally quantified
conjunct: the surviving constant-pool entry of the BX run is not intra-bin;
replaceWithDirectCall on the BLX site of mfBLX erases the indirect call and
emits the direct BL; rewriteBX on the BX site of mfBX retargets the call's
register operand; and the BX_CALL of mfBX survives the whole optimizer run. -/
theorem optimizer_intraBin_amended_witness :
    claimIntra gEx ⟨true, true, CPMod.noMod, some 0⟩ ".bin_1" = false ∧
    ((⟨2, MOpcode.BL, true, false, [MOperand.globalAddr 0], []⟩ : MInstr)
      ∈ (replaceWithDirectCall mfBLX
          ⟨1, MOpcode.BLX, true, false, [MOperand.reg 1], []⟩ 0).instrs) ∧
    ((⟨1, MOpcode.BX_CALL, true, false, [MOperand.reg 3], []⟩ : MInstr)
      ∈ (rewriteBX mfBX ⟨1, MOpcode.BX_CALL, true, false, [MOperand.reg 1], []⟩ 0).instrs) ∧
    (∃ j ∈ (runOptimizer gEx mfBX).instrs,
      j.mid = 1 ∧ j.opcode = MOpcode.BX_CALL ∧ j.isCall = true) :=
  ⟨optimizer_intraBin_amended.1 gEx mfBX ".bin_1" rfl rfl rfl
     ⟨2, MOpcode.LDRcp, false, true, [MOperand.cpi 0, MOperand.imm 0] ++ predAL, [2]⟩
     (by decide) 0 ⟨true, true, CPMod.noMod, some 0⟩ (by decide) (by decide),
   (optimizer_intraBin_amended.2.1 mfBLX
     ⟨1, MOpcode.BLX, true, false, [MOperand.reg 1], []⟩ 0 MOpcode.BL
     (by decide) rfl (by decide)).2,
   (optimizer_intraBin_amended.2.2.1 mfBX
     ⟨1, MOpcode.BX_CALL, true, false, [MOperand.reg 1], []⟩ 0 1 []
     (by decide) rfl (by decide) (by decide)).1,
   optimizer_intraBin_amended.2.2.2.1 gEx mfBX ⟨by decide, by decide⟩
     ⟨1, MOpcode.BX_CALL, true, false, [MOperand.reg 1], []⟩
     (by decide) rfl rfl⟩

theorem lookup_map_upd : ∀ (l : List (Nat × IRFunc)) (fid : Nat) (F : IRFunc) (v : Vis),
    l.lookup fid = some F →
    (l.map (fun p => if p.1 = fid then (p.1, { p.2 with visibility := v }) else p)).lookup fid
      = some { F with visibility := v } := by
  intro l
  induction l with
  | nil => intro fid F v h; simp [List.lookup] at h
  | cons p ps ih =>
    intro fid F v h
    obtain ⟨k, G⟩ := p
    rw [List.map_cons]
    by_cases hk : fid = k
    · subst hk
      simp only [List.lookup, beq_self_eq_true, Option.some.injEq] at h
      have hpos : ((fid, G) : Nat × IRFunc).1 = fid := rfl
      rw [if_pos hpos]
      simp only [List.lookup, beq_self_eq_true, Option.some.injEq]
      rw [h]
    · have hbeq : (fid == k) = false := beq_eq_false_iff_ne.mpr hk
      simp only [List.lookup, hbeq] at h
      have hne : ¬ ((k, G) : Nat × IRFunc).1 = fid := fun hc => hk hc.symm
      rw [if_neg hne]
      simp only [List.lookup, hbeq]
      exact ih fid F v h

theorem rauwFn_funcs (m : WModule) (fid wid : Nat) : (rauwFn m fid wid).funcs = m.funcs := rfl

theorem setVis_uses (m : WModule) (fid : Nat) (v : Vis) : (setVis m fid v).uses = m.uses := rfl

/-- Claim C7: for a processed pagerando function F that is variadic or has
non-local, non-protected visibility, the wrapper pass replaces every use of F
with the wrapper, and if F has non-local linkage it sets F's visibility to
protected (src/unnamed/part_017, replaceWithWrapper). -/
theorem replaceWithWrapper_spec (m : WModule) (fid wid : Nat) (us : List Nat) (F : IRFunc)
    (hF : m.funcs.lookup fid = some F)
    (hcond : F.varArg = true ∨ (F.localLinkage = false ∧ F.visibility ≠ Vis.protectedVis)) :
    (replaceWithWrapper m fid wid us).uses
      = m.uses.map (fun u => if u.target = some fid then { u with target := some wid } else u) ∧
    (F.localLinkage = false →
      (replaceWithWrapper m fid wid us).funcs.lookup fid
        = some { F with visibility := Vis.protectedVis }) := by
  have hcondb : (F.varArg || (!F.localLinkage && !(F.visibility = Vis.protectedVis))) = true := by
    rcases hcond with h | ⟨h1, h2⟩
    · simp [h]
    · simp [h1, h2]
  rw [replaceWithWrapper]
  rw [hF]
  dsimp only [Option.getD]
  rw [if_pos hcondb]
  cases hb : F.localLinkage with
  | false =>
    rw [if_pos (show ((!false) = true) from rfl)]
    constructor
    · rw [setVis_uses]
      rfl
    · intro _
      show (setVis (rauwFn m fid wid) fid Vis.protectedVis).funcs.lookup fid = _
      rw [setVis]
      dsimp only
      rw [rauwFn_funcs]
      have hl := lookup_map_upd m.funcs fid F Vis.protectedVis hF
      rw [hb] at hl
      exact hl
  | true =>
    rw [if_neg (show ¬ ((!true) = true) from by decide)]
    constructor
    · rfl
    · intro hcon
      cases hcon

/-- Witness for C7: an external, default-visibility, non-variadic function
with one address-taken use; the use moves to the wrapper and the function
becomes protected. -/
theorem replaceWithWrapper_spec_witness :
    (replaceWithWrapper m7 0 1 []).uses
      = m7.uses.map (fun u => if u.target = some 0 then { u with target := some 1 } else u) ∧
    (replaceWithWrapper m7 0 1 []).funcs.lookup 0
      = some ⟨false, Vis.protectedVis, false⟩ :=
  ⟨(replaceWithWrapper_spec m7 0 1 [] ⟨false, Vis.defaultVis, false⟩ rfl
      (Or.inr ⟨rfl, by decide⟩)).1,
   (replaceWithWrapper_spec m7 0 1 [] ⟨false, Vis.defaultVis, false⟩ rfl
      (Or.inr ⟨rfl, by decide⟩)).2 rfl⟩

/-- Claim C8 (spec P5): for a variadic function with exactly one va_start,
rewriteVarargs (PagerandoWrappers.cpp lines 260-314) produces a function of
arity one higher whose extra trailing parameter is a pointer to the va_list
aggregate; the body contains no va_start, the va_list allocation is erased,
and every use of the allocation is replaced by the new trailing parameter. -/
theorem rewriteVarargs_single (F : VFunc) (vs al : BInst) (vt : Ty)
    (hvs : findVAStarts F.body = [vs])
    (hal : findAlloca F.body (F.body.length + 1) vs = some al)
    (hk : al.kind = BIKind.alloca vt) :
    (rewriteVarargs F).params = F.params ++ [Ty.ptr vt] ∧
    (rewriteVarargs F).params.length = F.params.length + 1 ∧
    (rewriteVarargs F).varArg = false ∧
    (∀ i ∈ (rewriteVarargs F).body, ¬ i.kind = BIKind.vastart) ∧
    (∀ i ∈ (rewriteVarargs F).body, ¬ i.iid = al.iid) ∧
    (∀ i ∈ (rewriteVarargs F).body, ¬ Val.inst al.iid ∈ i.ops) ∧
    (∀ i ∈ F.body, ¬ i.iid = al.iid → ¬ i.kind = BIKind.vastart →
      (⟨i.iid, i.kind, i.ops.map (substVal (Val.inst al.iid) (Val.arg F.params.length))⟩ : BInst)
        ∈ (rewriteVarargs F).body) := by
  have hrw : rewriteVarargs F = ⟨F.params ++ [Ty.ptr vt], false,
      ((F.body.map (fun i =>
        { i with ops := i.ops.map (substVal (Val.inst al.iid) (Val.arg F.params.length)) })).filter
          (fun i => ¬ i.iid = al.iid)).filter
        (fun i => ¬ i.kind = BIKind.vastart), F.nextId⟩ := by
    rw [rewriteVarargs, hvs]
    simp only [List.head?_cons]
    rw [hal]
    simp only []
    rw [hk]
    simp
  rw [hrw]
  dsimp only
  refine ⟨rfl, by simp, rfl, ?_, ?_, ?_, ?_⟩
  · intro i hi
    exact of_decide_eq_true (List.mem_filter.mp hi).2
  · intro i hi
    exact of_decide_eq_true (List.mem_filter.mp (List.mem_filter.mp hi).1).2
  · intro i hi hc
    obtain ⟨j, hj, hji⟩ := List.mem_map.mp
      (List.mem_filter.mp (List.mem_filter.mp hi).1).1
    rw [← hji] at hc
    obtain ⟨v, _, hveq⟩ := List.mem_map.mp hc
    rw [substVal] at hveq
    by_cases hvv : v = Val.inst al.iid
    · rw [if_pos hvv] at hveq
      cases hveq
    · rw [if_neg hvv] at hveq
      exact hvv hveq
  · intro i hi hid hkind
    apply List.mem_filter.mpr
    refine ⟨?_, decide_eq_true hkind⟩
    apply List.mem_filter.mpr
    refine ⟨?_, decide_eq_true hid⟩
    exact List.mem_map.mpr ⟨i, hi, rfl⟩

/-- Witness for C8 on vfEx: parameter list gains the pointer to the aggregate,
and the remaining use of the allocation (instruction 3) now references the new
trailing parameter (argument 1). -/
theorem rewriteVarargs_single_witness :
    (rewriteVarargs vfEx).params = [Ty.i32] ++ [Ty.ptr (Ty.agg 4)] ∧
    (⟨3, BIKind.otherInst 0,
       [Val.inst 0, Val.arg 0].map (substVal (Val.inst 0) (Val.arg 1))⟩ : BInst)
      ∈ (rewriteVarargs vfEx).body :=
  ⟨(rewriteVarargs_single vfEx ⟨2, BIKind.vastart, [Val.inst 1]⟩
      ⟨0, BIKind.alloca (Ty.agg 4), []⟩ (Ty.agg 4) (by decide) (by decide) rfl).1,
   (rewriteVarargs_single vfEx ⟨2, BIKind.vastart, [Val.inst 1]⟩
      ⟨0, BIKind.alloca (Ty.agg 4), []⟩ (Ty.agg 4) (by decide) (by decide) rfl).2.2.2.2.2.2
     ⟨3, BIKind.otherInst 0, [Val.inst 0, Val.arg 0]⟩ (by decide) (by decide) (by decide)⟩

theorem get?_args_append (n k : Nat) (tail : List Val) (h : k < n) :
    (((List.range n).map Val.arg) ++ tail).get? k = some (Val.arg k) := by
  rw [List.get?_append (by simpa using h), List.get?_map, List.get?_range h]
  rfl

/-- Claim C9 (spec P2): a wrapper body built by createWrapperBody (the va_end
revision, PagerandoWrappers.cpp lines 617-648) is a single block holding
exactly one call to the renamed callee, which forwards all wrapper parameters
in order; the block ends by returning the call result (or void); and for a
variadic callee the block also holds a va_list allocation and a va_start
before the call, passes the allocation as the extra trailing argument, and
calls va_end after the call. -/
theorem createWrapperBody_spec (n : Nat) (cn : String) (rv : Bool) (vt : Option Ty) :
    ∃ cpos cInst,
      (createWrapperBody n cn rv vt).get? cpos = some cInst ∧
      cInst.kind = BIKind.callFn cn ∧
      cInst.ops = (List.range n).map Val.arg
        ++ (match vt with | some _ => [Val.inst 0] | none => []) ∧
      (∀ k, k < n → cInst.ops.get? k = some (Val.arg k)) ∧
      (∀ i ∈ createWrapperBody n cn rv vt, i.kind = BIKind.callFn cn → i = cInst) ∧
      (∃ r, (createWrapperBody n cn rv vt).getLast? = some r ∧
        (rv = true → r.kind = BIKind.retVoid ∧ r.ops = []) ∧
        (rv = false → r.kind = BIKind.ret ∧ r.ops = [Val.inst cInst.iid])) ∧
      (∀ t, vt = some t →
        ∃ aInst sInst eInst apos spos epos,
          apos < spos ∧ spos < cpos ∧ cpos < epos ∧
          (createWrapperBody n cn rv vt).get? apos = some aInst ∧
          aInst.kind = BIKind.alloca t ∧
          (createWrapperBody n cn rv vt).get? spos = some sInst ∧
          sInst.kind = BIKind.vastart ∧
          (createWrapperBody n cn rv vt).get? epos = some eInst ∧
          eInst.kind = BIKind.vaend ∧
          cInst.ops.getLast? = some (Val.inst aInst.iid)) := by
  cases vt with
  | none =>
    refine ⟨0, ⟨0, BIKind.callFn cn, (List.range n).map Val.arg⟩, rfl, rfl, by simp, ?_, ?_, ?_, ?_⟩
    · intro k hk
      exact get?_args_append n k [] hk ▸ by rw [List.append_nil]
    · intro i hi hknd
      rcases List.mem_cons.mp hi with rfl | hi2
      · rfl
      · cases rv with
        | true => simp at hi2; rw [hi2] at hknd; cases hknd
        | false => simp at hi2; rw [hi2] at hknd; cases hknd
    · cases rv with
      | true =>
        exact ⟨⟨1, BIKind.retVoid, []⟩, rfl, fun _ => ⟨rfl, rfl⟩,
          fun hc => absurd hc (by decide)⟩
      | false =>
        exact ⟨⟨1, BIKind.ret, [Val.inst 0]⟩, rfl, fun hc => absurd hc (by decide),
          fun _ => ⟨rfl, rfl⟩⟩
    · intro t ht
      cases ht
  | some t' =>
    refine ⟨3, ⟨3, BIKind.callFn cn, (List.range n).map Val.arg ++ [Val.inst 0]⟩,
      rfl, rfl, rfl, ?_, ?_, ?_, ?_⟩
    · intro k hk
      exact get?_args_append n k [Val.inst 0] hk
    · intro i hi hknd
      rcases List.mem_cons.mp hi with rfl | hi2
      · cases hknd
      · rcases List.mem_cons.mp hi2 with rfl | hi3
        · cases hknd
        · rcases List.mem_cons.mp hi3 with rfl | hi4
          · cases hknd
          · rcases List.mem_cons.mp hi4 with rfl | hi5
            · rfl
            · rcases List.mem_cons.mp hi5 with rfl | hi6
              · cases hknd
              · rcases List.mem_cons.mp hi6 with rfl | hi7
                · cases hknd
                · cases rv with
                  | true => simp at hi7; rw [hi7] at hknd; cases hknd
                  | false => simp at hi7; rw [hi7] at hknd; cases hknd
    · cases rv with
      | true =>
        exact ⟨⟨6, BIKind.retVoid, []⟩, rfl, fun _ => ⟨rfl, rfl⟩,
          fun hc => absurd hc (by decide)⟩
      | false =>
        exact ⟨⟨6, BIKind.ret, [Val.inst 3]⟩, rfl, fun hc => absurd hc (by decide),
          fun _ => ⟨rfl, rfl⟩⟩
    · intro t ht
      cases ht
      refine ⟨⟨0, BIKind.alloca t', []⟩, ⟨2, BIKind.vastart, [Val.inst 1]⟩,
        ⟨5, BIKind.vaend, [Val.inst 4]⟩, 0, 2, 5, by decide, by decide, by decide,
        rfl, rfl, rfl, rfl, rfl, rfl, ?_⟩
      simp

/-- Witness for C9 at two parameters, a variadic callee and a non-void
return. -/
theorem createWrapperBody_spec_witness :
    ∃ cpos cInst,
      (createWrapperBody 2 "f$$origva" false (some (Ty.agg 4))).get? cpos = some cInst ∧
      cInst.kind = BIKind.callFn "f$$origva" ∧
      cInst.ops = (List.range 2).map Val.arg
        ++ (match some (Ty.agg 4) with | some _ => [Val.inst 0] | none => []) ∧
      (∀ k, k < 2 → cInst.ops.get? k = some (Val.arg k)) ∧
      (∀ i ∈ createWrapperBody 2 "f$$origva" false (some (Ty.agg 4)),
        i.kind = BIKind.callFn "f$$origva" → i = cInst) ∧
      (∃ r, (createWrapperBody 2 "f$$origva" false (some (Ty.agg 4))).getLast? = some r ∧
        (false = true → r.kind = BIKind.retVoid ∧ r.ops = []) ∧
        (false = false → r.kind = BIKind.ret ∧ r.ops = [Val.inst cInst.iid])) ∧
      (∀ t, some (Ty.agg 4) = some t →
        ∃ aInst sInst eInst apos spos epos,
          apos < spos ∧ spos < cpos ∧ cpos < epos ∧
          (createWrapperBody 2 "f$$origva" false (some (Ty.agg 4))).get? apos = some aInst ∧
          aInst.kind = BIKind.alloca t ∧
          (createWrapperBody 2 "f$$origva" false (some (Ty.agg 4))).get? spos = some sInst ∧
          sInst.kind = BIKind.vastart ∧
          (createWrapperBody 2 "f$$origva" false (some (Ty.agg 4))).get? epos = some eInst ∧
          eInst.kind = BIKind.vaend ∧
          cInst.ops.getLast? = some (Val.inst aInst.iid)) :=
  createWrapperBody_spec 2 "f$$origva" false (some (Ty.agg 4))
